import Mathlib

/-!
Verification development for the conda-cage reconciler.

The Rust sources are shallowly embedded here.  Strings are modelled as
`List Char` (named `Str`) so that every definition is executable and
decidable on concrete inputs; a Rust `HashMap<String, V>` is modelled as a
key-unique association list (`insert` replaces the binding in place, as
`HashMap::insert` does; iteration order of a `HashMap` is unspecified, so
all theorems below only depend on the multiset of entries, never on their
order).  Fallible Rust code returns `Except`/`Option`, with `Option.none`
standing for a `panic!`.
-/

/-- Strings modelled as character lists (Rust `&str`/`String`). -/
abbrev Str := List Char

/-- Rust `str::trim`: drop Unicode whitespace from both ends. -/
def wsTrim (s : Str) : Str :=
  ((s.dropWhile Char.isWhitespace).reverse.dropWhile Char.isWhitespace).reverse

/-- Helper for `wsSplit`: accumulates the current (reversed) token. -/
def wsSplitAux : Str → Str → List Str
  | acc, [] => if acc = [] then [] else [acc.reverse]
  | acc, c :: cs =>
    if c.isWhitespace then
      if acc = [] then wsSplitAux [] cs else acc.reverse :: wsSplitAux [] cs
    else
      wsSplitAux (c :: acc) cs

/-- Rust `str::split_whitespace`: split on whitespace runs, no empty tokens. -/
def wsSplit (s : Str) : List Str := wsSplitAux [] s

/-- Rust `str::lines`, modelled as splitting on the newline character.
(`str::lines` also strips a trailing `\r` and drops a final empty line;
both differences are immaterial downstream because every consumer first
trims each line and skips empty ones.) -/
def splitOnChar (c : Char) : Str → List Str
  | [] => [[]]
  | d :: ds =>
    match splitOnChar c ds with
    | [] => []
    | r :: rs => if d = c then [] :: r :: rs else (d :: r) :: rs

/-- Rust `str::starts_with("#")`. -/
def startsWithHash : Str → Bool
  | '#' :: _ => true
  | _ => false

/-- Rust `str::contains(pat)`: substring containment. -/
def containsSub (s pat : Str) : Bool := s.tails.any pat.isPrefixOf

/-- Key lookup in the association-list model of `HashMap<String, V>`
(Rust `HashMap::get`). -/
def lookupA {α : Type} (m : List (Str × α)) (k : Str) : Option α :=
  (m.find? (fun p => p.1 = k)).map (·.2)

/-- Rust `HashMap::contains_key`. -/
def containsKeyA {α : Type} (m : List (Str × α)) (k : Str) : Bool :=
  m.any (fun p => p.1 = k)

/-- Rust `HashMap::insert`: replace the binding if the key is present,
otherwise add it (the position of a fresh binding is irrelevant: `HashMap`
iteration order is unspecified). -/
def insertA {α : Type} : List (Str × α) → Str → α → List (Str × α)
  | [], k, v => [(k, v)]
  | p :: m, k, v => if p.1 = k then (k, v) :: m else p :: insertA m k v

/-- Keys of the association list are pairwise distinct (always true for a
map built by `insertA`, and true of every `HashMap`). -/
def keysNodup {α : Type} (m : List (Str × α)) : Prop :=
  (m.map Prod.fst).Nodup

instance {α : Type} (m : List (Str × α)) : Decidable (keysNodup m) := by
  unfold keysNodup; infer_instance

/-! ## src/conda/recipe.rs : Spec, CondaRecipe, diff -/

/-- One recipe line (src/conda/recipe.rs `Spec`).  Note that the derived
`DecidableEq` is structural equality; the Rust `impl PartialEq for Spec`
(which ignores the channel) is `Spec.specEq` below. -/
structure Spec where
  name : Str
  version : Str
  build : Str
  channel : Option Str
deriving DecidableEq, Repr

/-- The hand-written `impl PartialEq for Spec` (src/conda/recipe.rs lines
101-105): name, version and build must match; the channel is ignored. -/
def Spec.specEq (a b : Spec) : Bool :=
  a.name = b.name && a.version = b.version && a.build = b.build

/-- Parse error (src/conda/recipe.rs `Error::InvalidRecipe`). -/
inductive RecipeError
  | invalidRecipe
deriving DecidableEq, Repr

/-- src/conda/recipe.rs `CondaRecipe`: a map from package name to spec. -/
structure CondaRecipe where
  specs : List (Str × Spec)
deriving DecidableEq, Repr

/-- The per-line loop body of `CondaRecipe::try_new` (src/conda/recipe.rs
lines 15-44), processing the remaining lines into the accumulated map. -/
def tryNewLines : List Str → List (Str × Spec) → Except RecipeError (List (Str × Spec))
  | [], specs => Except.ok specs
  | l :: rest, specs =>
    let line := wsTrim l
    if startsWithHash line || line.isEmpty then
      tryNewLines rest specs
    else
      match wsSplit line with
      | [n, v, b, c] => tryNewLines rest (insertA specs n ⟨n, v, b, some c⟩)
      | [n, v, b] => tryNewLines rest (insertA specs n ⟨n, v, b, none⟩)
      | _ => Except.error RecipeError.invalidRecipe

/-- src/conda/recipe.rs `CondaRecipe::try_new`. -/
def CondaRecipe.tryNew (content : Str) : Except RecipeError CondaRecipe :=
  (tryNewLines (splitOnChar '\n' content) []).map CondaRecipe.mk

/-- An update record (src/conda/recipe.rs `Update`); `from` is a Lean
keyword and `to` is reserved, hence `from'` and `to'`. -/
structure Update where
  from' : Spec
  to' : Spec
deriving DecidableEq, Repr

/-- One sub-diff (src/conda/recipe.rs `Diff`). -/
structure Diff where
  add : List Spec
  update : List Update
  delete : List Spec
deriving DecidableEq, Repr

/-- The full diff plan (src/conda/recipe.rs `DiffInfo`): one sub-diff for
native (conda) packages and one for language-layer (pypi) packages. -/
structure DiffInfo where
  conda : Diff
  pypi : Diff
deriving DecidableEq, Repr

def DiffInfo.empty : DiffInfo := ⟨⟨[], [], []⟩, ⟨[], [], []⟩⟩

/-- The channel sentinel marking a language-layer spec. -/
def pypiChannel : Str := "pypi".data

/-- First loop body of `CondaRecipe::diff` (src/conda/recipe.rs lines
51-69): classify by the OLD spec's channel, then emit an update when the
name is present in `new` with a different identity, or a delete when the
name is absent from `new`. -/
def diffOldStep (newSpecs : List (Str × Spec)) (acc : DiffInfo) (e : Str × Spec) : DiffInfo :=
  let oldSpec := e.2
  let isPypi := oldSpec.channel = some pypiChannel
  match lookupA newSpecs e.1 with
  | some newSpec =>
    if Spec.specEq newSpec oldSpec then acc
    else if isPypi then
      { acc with pypi := { acc.pypi with update := acc.pypi.update ++ [⟨oldSpec, newSpec⟩] } }
    else
      { acc with conda := { acc.conda with update := acc.conda.update ++ [⟨oldSpec, newSpec⟩] } }
  | none =>
    if isPypi then
      { acc with pypi := { acc.pypi with delete := acc.pypi.delete ++ [oldSpec] } }
    else
      { acc with conda := { acc.conda with delete := acc.conda.delete ++ [oldSpec] } }

/-- Second loop body of `CondaRecipe::diff` (src/conda/recipe.rs lines
71-81): every name of `new` not present in `old` becomes an add, classified
by the NEW spec's channel. -/
def diffNewStep (oldSpecs : List (Str × Spec)) (acc : DiffInfo) (e : Str × Spec) : DiffInfo :=
  let newSpec := e.2
  if containsKeyA oldSpecs newSpec.name then acc
  else if newSpec.channel = some pypiChannel then
    { acc with pypi := { acc.pypi with add := acc.pypi.add ++ [newSpec] } }
  else
    { acc with conda := { acc.conda with add := acc.conda.add ++ [newSpec] } }

/-- src/conda/recipe.rs `CondaRecipe::diff` (lines 49-84). -/
def CondaRecipe.diff (old new : CondaRecipe) : DiffInfo :=
  let acc := old.specs.foldl (diffOldStep new.specs) DiffInfo.empty
  new.specs.foldl (diffNewStep old.specs) acc

/-! ## Closed form of `CondaRecipe.diff`

The two fold loops of `CondaRecipe::diff` only ever append to the five
lists of the plan; the following contribution functions record, entry by
entry, what each loop iteration appends to each list, and the fold lemmas
below give the resulting closed form of the whole plan. -/

/-- What one old entry contributes to `conda.update`. -/
def condaUpdateOf (ns : List (Str × Spec)) (e : Str × Spec) : List Update :=
  match lookupA ns e.1 with
  | some newSpec =>
    if Spec.specEq newSpec e.2 then []
    else if e.2.channel = some pypiChannel then []
    else [⟨e.2, newSpec⟩]
  | none => []

/-- What one old entry contributes to `pypi.update`. -/
def pypiUpdateOf (ns : List (Str × Spec)) (e : Str × Spec) : List Update :=
  match lookupA ns e.1 with
  | some newSpec =>
    if Spec.specEq newSpec e.2 then []
    else if e.2.channel = some pypiChannel then [⟨e.2, newSpec⟩]
    else []
  | none => []

/-- What one old entry contributes to `conda.delete`. -/
def condaDeleteOf (ns : List (Str × Spec)) (e : Str × Spec) : List Spec :=
  match lookupA ns e.1 with
  | some _ => []
  | none => if e.2.channel = some pypiChannel then [] else [e.2]

/-- What one old entry contributes to `pypi.delete`. -/
def pypiDeleteOf (ns : List (Str × Spec)) (e : Str × Spec) : List Spec :=
  match lookupA ns e.1 with
  | some _ => []
  | none => if e.2.channel = some pypiChannel then [e.2] else []

/-- What one new entry contributes to `conda.add`. -/
def condaAddOf (os : List (Str × Spec)) (e : Str × Spec) : List Spec :=
  if containsKeyA os e.2.name then []
  else if e.2.channel = some pypiChannel then [] else [e.2]

/-- What one new entry contributes to `pypi.add`. -/
def pypiAddOf (os : List (Str × Spec)) (e : Str × Spec) : List Spec :=
  if containsKeyA os e.2.name then []
  else if e.2.channel = some pypiChannel then [e.2] else []

theorem diffOldStep_eq (ns : List (Str × Spec)) (acc : DiffInfo) (e : Str × Spec) :
    diffOldStep ns acc e =
      ⟨⟨acc.conda.add, acc.conda.update ++ condaUpdateOf ns e,
        acc.conda.delete ++ condaDeleteOf ns e⟩,
       ⟨acc.pypi.add, acc.pypi.update ++ pypiUpdateOf ns e,
        acc.pypi.delete ++ pypiDeleteOf ns e⟩⟩ := by
  unfold diffOldStep condaUpdateOf condaDeleteOf pypiUpdateOf pypiDeleteOf
  rcases lookupA ns e.1 with _ | ns' <;> split_ifs <;> simp_all <;> split_ifs <;> simp_all

theorem diffNewStep_eq (os : List (Str × Spec)) (acc : DiffInfo) (e : Str × Spec) :
    diffNewStep os acc e =
      ⟨⟨acc.conda.add ++ condaAddOf os e, acc.conda.update, acc.conda.delete⟩,
       ⟨acc.pypi.add ++ pypiAddOf os e, acc.pypi.update, acc.pypi.delete⟩⟩ := by
  unfold diffNewStep condaAddOf pypiAddOf
  split_ifs <;> simp_all

theorem foldl_diffOldStep (ns : List (Str × Spec)) (l : List (Str × Spec)) (acc : DiffInfo) :
    l.foldl (diffOldStep ns) acc =
      ⟨⟨acc.conda.add, acc.conda.update ++ l.flatMap (condaUpdateOf ns),
        acc.conda.delete ++ l.flatMap (condaDeleteOf ns)⟩,
       ⟨acc.pypi.add, acc.pypi.update ++ l.flatMap (pypiUpdateOf ns),
        acc.pypi.delete ++ l.flatMap (pypiDeleteOf ns)⟩⟩ := by
  induction l generalizing acc with
  | nil => simp
  | cons e l ih =>
    rw [List.foldl_cons, diffOldStep_eq, ih]
    simp [List.append_assoc]

theorem foldl_diffNewStep (os : List (Str × Spec)) (l : List (Str × Spec)) (acc : DiffInfo) :
    l.foldl (diffNewStep os) acc =
      ⟨⟨acc.conda.add ++ l.flatMap (condaAddOf os), acc.conda.update, acc.conda.delete⟩,
       ⟨acc.pypi.add ++ l.flatMap (pypiAddOf os), acc.pypi.update, acc.pypi.delete⟩⟩ := by
  induction l generalizing acc with
  | nil => simp
  | cons e l ih =>
    rw [List.foldl_cons, diffNewStep_eq, ih]
    simp [List.append_assoc]

/-- Closed form of the whole diff plan. -/
theorem CondaRecipe.diff_eq (old new : CondaRecipe) :
    CondaRecipe.diff old new =
      ⟨⟨new.specs.flatMap (condaAddOf old.specs),
        old.specs.flatMap (condaUpdateOf new.specs),
        old.specs.flatMap (condaDeleteOf new.specs)⟩,
       ⟨new.specs.flatMap (pypiAddOf old.specs),
        old.specs.flatMap (pypiUpdateOf new.specs),
        old.specs.flatMap (pypiDeleteOf new.specs)⟩⟩ := by
  unfold CondaRecipe.diff
  rw [foldl_diffOldStep, foldl_diffNewStep]
  simp only [DiffInfo.empty, List.nil_append]

/-- A successful lookup means the looked-up pair is an entry of the map. -/
theorem lookupA_mem {α : Type} {m : List (Str × α)} {k : Str} {v : α}
    (h : lookupA m k = some v) : (k, v) ∈ m := by
  unfold lookupA at h
  rcases hf : m.find? (fun p => p.1 = k) with _ | p <;> rw [hf] at h
  · simp at h
  · have hm := List.mem_of_find?_eq_some hf
    have hp := List.find?_some hf
    obtain ⟨a, b⟩ := p
    simp at h hp
    subst h; subst hp
    exact hm

/-- A successful lookup means the key is present. -/
theorem lookupA_containsKeyA {α : Type} {m : List (Str × α)} {k : Str} {v : α}
    (h : lookupA m k = some v) : containsKeyA m k = true := by
  have := lookupA_mem h
  unfold containsKeyA
  rw [List.any_eq_true]
  exact ⟨(k, v), this, by simp⟩

/-! ## Claim C6: parser failure characterization and last-wins duplicates -/

theorem lookupA_cons {α : Type} (p : Str × α) (m : List (Str × α)) (n : Str) :
    lookupA (p :: m) n = if p.1 = n then some p.2 else lookupA m n := by
  simp only [lookupA, List.find?]
  split_ifs with h <;> simp_all

theorem lookupA_insertA {α : Type} (m : List (Str × α)) (k : Str) (v : α) (n : Str) :
    lookupA (insertA m k v) n = if n = k then some v else lookupA m n := by
  induction m with
  | nil =>
    simp only [insertA]
    rw [lookupA_cons]
    simp [lookupA, List.find?, eq_comm]
  | cons p m ih =>
    by_cases hp : p.1 = k
    · simp only [insertA, hp, if_true]
      rw [lookupA_cons, lookupA_cons]
      by_cases h : k = n
      · simp [h]
      · have h2 : ¬ n = k := fun hh => h hh.symm
        have h3 : ¬ p.1 = n := by rw [hp]; exact h
        simp [h, h2, h3]
    · simp only [insertA, hp, if_false]
      rw [lookupA_cons, lookupA_cons, ih]
      by_cases hn : p.1 = n
      · have : ¬ n = k := fun h => hp (h ▸ hn)
        simp [hn, this]
      · simp [hn]

/-- A recipe line is rejected by the parser: non-empty after trimming, not
a comment, and its whitespace-token count is neither 3 nor 4. -/
def badLine (l : Str) : Prop :=
  startsWithHash (wsTrim l) = false ∧ wsTrim l ≠ [] ∧
  (wsSplit (wsTrim l)).length ≠ 3 ∧ (wsSplit (wsTrim l)).length ≠ 4

instance (l : Str) : Decidable (badLine l) := by unfold badLine; infer_instance

/-- The spec an accepted (neither skipped nor rejected) line produces. -/
def lineSpec (l : Str) : Option Spec :=
  let line := wsTrim l
  if startsWithHash line || line.isEmpty then none
  else
    match wsSplit line with
    | [n, v, b, c] => some ⟨n, v, b, some c⟩
    | [n, v, b] => some ⟨n, v, b, none⟩
    | _ => none

/-- One step of the specification-side fold: keep the spec of the latest
accepted line carrying the requested name. -/
def lastStep (n : Str) (cur : Option Spec) (l : Str) : Option Spec :=
  match lineSpec l with
  | some sp => if sp.name = n then some sp else cur
  | none => cur

/-- Specification side of the duplicate-handling sentence of the spec: the
spec of the last accepted line that carries the given name. -/
def lastSpecOf (ls : List Str) (n : Str) : Option Spec :=
  ls.foldl (lastStep n) none

theorem tryNewLines_isOk_iff (ls : List Str) (acc : List (Str × Spec)) :
    (tryNewLines ls acc).isOk = false ↔ ∃ l ∈ ls, badLine l := by
  induction ls generalizing acc with
  | nil => simp [tryNewLines, Except.isOk, Except.toBool]
  | cons l rest ih =>
    by_cases hskip : (startsWithHash (wsTrim l) || (wsTrim l).isEmpty) = true
    · have hnotbad : ¬ badLine l := by
        rcases Bool.or_eq_true_iff.mp hskip with h | h
        · exact fun hb => by simp [badLine, h] at hb
        · exact fun hb => hb.2.1 (by simpa [List.isEmpty_iff] using h)
      simp only [tryNewLines, hskip, if_true]
      rw [ih]
      simp [hnotbad]
    · have hsk : startsWithHash (wsTrim l) = false ∧ ¬ wsTrim l = [] := by
        simpa [List.isEmpty_iff] using hskip
      rcases htok : wsSplit (wsTrim l) with _ | ⟨a, _ | ⟨b, _ | ⟨c, _ | ⟨d, _ | ⟨e, t⟩⟩⟩⟩⟩ <;>
        simp only [tryNewLines, hskip, if_false, htok, Bool.false_eq_true]
      · simp [Except.isOk, Except.toBool, badLine, hsk.1, hsk.2, htok]
      · simp [Except.isOk, Except.toBool, badLine, hsk.1, hsk.2, htok]
      · simp [Except.isOk, Except.toBool, badLine, hsk.1, hsk.2, htok]
      · have hnb : ¬ badLine l := by simp [badLine, htok]
        rw [ih]
        simp [hnb]
      · have hnb : ¬ badLine l := by simp [badLine, htok]
        rw [ih]
        simp [hnb]
      · simp [Except.isOk, Except.toBool, badLine, hsk.1, hsk.2, htok]

theorem tryNewLines_lookup (ls : List Str) (acc m : List (Str × Spec)) (n : Str)
    (h : tryNewLines ls acc = Except.ok m) :
    lookupA m n = ls.foldl (lastStep n) (lookupA acc n) := by
  induction ls generalizing acc with
  | nil =>
    simp only [tryNewLines, Except.ok.injEq] at h
    subst h; simp
  | cons l rest ih =>
    by_cases hskip : (startsWithHash (wsTrim l) || (wsTrim l).isEmpty) = true
    · simp only [tryNewLines, hskip, if_true] at h
      have hls : lineSpec l = none := by simp [lineSpec, hskip]
      rw [List.foldl_cons]
      have : lastStep n (lookupA acc n) l = lookupA acc n := by simp [lastStep, hls]
      rw [this]
      exact ih acc h
    · rcases htok : wsSplit (wsTrim l) with _ | ⟨a, _ | ⟨b, _ | ⟨c, _ | ⟨d, _ | ⟨e, t⟩⟩⟩⟩⟩ <;>
        simp only [tryNewLines, hskip, if_false, htok, Bool.false_eq_true] at h <;>
        try exact absurd h (by simp)
      · -- three tokens
        have hls : lineSpec l = some ⟨a, b, c, none⟩ := by
          simp [lineSpec, hskip, htok]
        rw [List.foldl_cons]
        have hstep : lastStep n (lookupA acc n) l =
            if n = a then some ⟨a, b, c, none⟩ else lookupA acc n := by
          simp only [lastStep, hls]
          by_cases hna : a = n
          · subst hna; simp
          · have hn2 : ¬ n = a := fun hh => hna hh.symm
            simp [hna, hn2]
        rw [hstep, ← lookupA_insertA]
        exact ih _ h
      · -- four tokens
        have hls : lineSpec l = some ⟨a, b, c, some d⟩ := by
          simp [lineSpec, hskip, htok]
        rw [List.foldl_cons]
        have hstep : lastStep n (lookupA acc n) l =
            if n = a then some ⟨a, b, c, some d⟩ else lookupA acc n := by
          simp only [lastStep, hls]
          by_cases hna : a = n
          · subst hna; simp
          · have hn2 : ¬ n = a := fun hh => hna hh.symm
            simp [hna, hn2]
        rw [hstep, ← lookupA_insertA]
        exact ih _ h

/-- Claim C6: `CondaRecipe::try_new` fails with `InvalidRecipe` if and only
if some line that is non-empty after trimming and is not a `#` comment has
a whitespace-token count other than 3 or 4; and on success the recipe maps
each name to the spec of the last accepted line carrying that name. -/
theorem spec_c6 (content : Str) :
    (CondaRecipe.tryNew content = Except.error RecipeError.invalidRecipe ↔
      ∃ l ∈ splitOnChar '\n' content, badLine l) ∧
    (∀ r, CondaRecipe.tryNew content = Except.ok r →
      ∀ n, lookupA r.specs n = lastSpecOf (splitOnChar '\n' content) n) := by
  constructor
  · rcases hres : tryNewLines (splitOnChar '\n' content) [] with e | mm
    · cases e
      constructor
      · intro _
        exact (tryNewLines_isOk_iff _ _).mp (by rw [hres]; rfl)
      · intro _
        simp [CondaRecipe.tryNew, hres, Except.map]
    · constructor
      · intro hcontra
        simp [CondaRecipe.tryNew, hres, Except.map] at hcontra
      · intro hex
        have := (tryNewLines_isOk_iff (splitOnChar '\n' content) []).mpr hex
        rw [hres] at this
        simp [Except.isOk, Except.toBool] at this
  · intro r hr n
    rcases hres : tryNewLines (splitOnChar '\n' content) [] with e | mm
    · simp [CondaRecipe.tryNew, hres, Except.map] at hr
    · simp only [CondaRecipe.tryNew, hres, Except.map] at hr
      cases hr
      have := tryNewLines_lookup (splitOnChar '\n' content) [] mm n hres
      rw [this]
      unfold lastSpecOf
      congr 1

/-- Concrete instance of claim C6: in a recipe with a duplicated name, the
later line wins. -/
theorem spec_c6_witness :
    lookupA (CondaRecipe.mk
        [("a".data, ⟨"a".data, "2".data, "c".data, none⟩)]).specs "a".data =
      lastSpecOf (splitOnChar '\n' "a 1 b\na 2 c".data) "a".data :=
  (spec_c6 "a 1 b\na 2 c".data).2
    ⟨[("a".data, ⟨"a".data, "2".data, "c".data, none⟩)]⟩ rfl "a".data

/-! ## Claims C1 and C7: diff-plan properties -/

/-- Distinct keys determine at most one value. -/
theorem keysNodup_eq {α : Type} {m : List (Str × α)} (h : keysNodup m) {k : Str} {v w : α}
    (h1 : (k, v) ∈ m) (h2 : (k, w) ∈ m) : v = w := by
  induction m with
  | nil => cases h1
  | cons p m ih =>
    have hnd := (List.nodup_cons.mp h)
    rcases List.mem_cons.mp h1 with rfl | h1m
    · rcases List.mem_cons.mp h2 with h2e | h2m
      · exact (congrArg Prod.snd h2e.symm)
      · exact absurd (List.mem_map.mpr ⟨(k, w), h2m, rfl⟩) hnd.1
    · rcases List.mem_cons.mp h2 with rfl | h2m
      · exact absurd (List.mem_map.mpr ⟨(k, v), h1m, rfl⟩) hnd.1
      · exact ih hnd.2 h1m h2m

/-- The native-to-language-layer counterexample recipe entries (seeded
scenario 3 of the spec). -/
def numpyOld : Spec := ⟨"numpy".data, "1.18.1".data, "py37h7241aed_0".data, none⟩

def numpyNew : Spec := ⟨"numpy".data, "1.18.2".data, "pypi_0".data, some "pypi".data⟩

/-- Claim C1 is false as stated: for the cross-provenance change
numpy 1.18.1 (native) to numpy 1.18.2 (pypi), `CondaRecipe::diff` emits NO
delete in the old (conda) sub-diff and NO add in the new (pypi) sub-diff;
instead it emits the cross-kind update record itself, classified under the
old side. -/
theorem spec_c1_cex :
    numpyOld ∉ (CondaRecipe.diff ⟨[("numpy".data, numpyOld)]⟩
        ⟨[("numpy".data, numpyNew)]⟩).conda.delete
    ∧ numpyNew ∉ (CondaRecipe.diff ⟨[("numpy".data, numpyOld)]⟩
        ⟨[("numpy".data, numpyNew)]⟩).pypi.add
    ∧ (⟨numpyOld, numpyNew⟩ : Update) ∈ (CondaRecipe.diff ⟨[("numpy".data, numpyOld)]⟩
        ⟨[("numpy".data, numpyNew)]⟩).conda.update := by
  decide

/-- Claim C1 (amended): when a name occurs in both recipes with changed
(version, build) and crossing provenance, `CondaRecipe::diff` emits a
single cross-kind update record, classified under the OLD spec's
provenance sub-diff, and emits no delete and no add for that name in
either sub-diff. -/
theorem spec_c1_amended (old new : CondaRecipe) (name : Str) (oldSpec newSpec : Spec)
    (hk : ∀ e ∈ old.specs, e.1 = e.2.name)
    (ho : lookupA old.specs name = some oldSpec)
    (hn : lookupA new.specs name = some newSpec)
    (hne : Spec.specEq newSpec oldSpec = false)
    (hcross : ¬ ((oldSpec.channel = some pypiChannel) ↔ (newSpec.channel = some pypiChannel))) :
    ((⟨oldSpec, newSpec⟩ : Update) ∈
        (if oldSpec.channel = some pypiChannel
          then (CondaRecipe.diff old new).pypi
          else (CondaRecipe.diff old new).conda).update)
    ∧ (∀ s ∈ (CondaRecipe.diff old new).conda.delete, s.name ≠ name)
    ∧ (∀ s ∈ (CondaRecipe.diff old new).pypi.delete, s.name ≠ name)
    ∧ (∀ s ∈ (CondaRecipe.diff old new).conda.add, s.name ≠ name)
    ∧ (∀ s ∈ (CondaRecipe.diff old new).pypi.add, s.name ≠ name) := by
  have hmem : (name, oldSpec) ∈ old.specs := lookupA_mem ho
  rw [CondaRecipe.diff_eq]
  refine ⟨?_, ?_, ?_, ?_, ?_⟩
  · by_cases hch : oldSpec.channel = some pypiChannel
    · rw [if_pos hch]
      exact List.mem_flatMap.mpr ⟨(name, oldSpec), hmem, by
        simp [pypiUpdateOf, hn, hne, hch]⟩
    · rw [if_neg hch]
      exact List.mem_flatMap.mpr ⟨(name, oldSpec), hmem, by
        simp [condaUpdateOf, hn, hne, hch]⟩
  · intro s hs heq
    obtain ⟨e, he, hse⟩ := List.mem_flatMap.mp hs
    unfold condaDeleteOf at hse
    rcases hl : lookupA new.specs e.1 with _ | w
    · rw [hl] at hse
      split_ifs at hse <;> simp at hse
      subst hse
      rw [hk e he, heq] at hl
      rw [hl] at hn
      cases hn
    · rw [hl] at hse; cases hse
  · intro s hs heq
    obtain ⟨e, he, hse⟩ := List.mem_flatMap.mp hs
    unfold pypiDeleteOf at hse
    rcases hl : lookupA new.specs e.1 with _ | w
    · rw [hl] at hse
      split_ifs at hse <;> simp at hse
      subst hse
      rw [hk e he, heq] at hl
      rw [hl] at hn
      cases hn
    · rw [hl] at hse; cases hse
  · intro s hs heq
    obtain ⟨e, he, hse⟩ := List.mem_flatMap.mp hs
    unfold condaAddOf at hse
    split_ifs at hse with h1 h2 <;> simp at hse
    subst hse
    rw [heq] at h1
    exact h1 (lookupA_containsKeyA ho)
  · intro s hs heq
    obtain ⟨e, he, hse⟩ := List.mem_flatMap.mp hs
    unfold pypiAddOf at hse
    split_ifs at hse with h1 h2 <;> simp at hse
    subst hse
    rw [heq] at h1
    exact h1 (lookupA_containsKeyA ho)

/-- Concrete instance of the amended claim C1 at the numpy scenario. -/
theorem spec_c1_witness :
    ((⟨numpyOld, numpyNew⟩ : Update) ∈
        (if numpyOld.channel = some pypiChannel
          then (CondaRecipe.diff ⟨[("numpy".data, numpyOld)]⟩ ⟨[("numpy".data, numpyNew)]⟩).pypi
          else (CondaRecipe.diff ⟨[("numpy".data, numpyOld)]⟩
            ⟨[("numpy".data, numpyNew)]⟩).conda).update)
    ∧ (∀ s ∈ (CondaRecipe.diff ⟨[("numpy".data, numpyOld)]⟩
        ⟨[("numpy".data, numpyNew)]⟩).conda.delete, s.name ≠ "numpy".data)
    ∧ (∀ s ∈ (CondaRecipe.diff ⟨[("numpy".data, numpyOld)]⟩
        ⟨[("numpy".data, numpyNew)]⟩).pypi.delete, s.name ≠ "numpy".data)
    ∧ (∀ s ∈ (CondaRecipe.diff ⟨[("numpy".data, numpyOld)]⟩
        ⟨[("numpy".data, numpyNew)]⟩).conda.add, s.name ≠ "numpy".data)
    ∧ (∀ s ∈ (CondaRecipe.diff ⟨[("numpy".data, numpyOld)]⟩
        ⟨[("numpy".data, numpyNew)]⟩).pypi.add, s.name ≠ "numpy".data) :=
  spec_c1_amended ⟨[("numpy".data, numpyOld)]⟩ ⟨[("numpy".data, numpyNew)]⟩
    "numpy".data numpyOld numpyNew (by decide) (by decide) (by decide) (by decide) (by decide)

/-! ## src/recipe.rs : Package, RecipeDiff; src/action/install.rs : collect_packages -/

/-- src/recipe.rs `PackageKind`. -/
inductive PackageKind
  | pypi
  | conda (build : Str) (channel : Str)
deriving DecidableEq, Repr

/-- src/recipe.rs `Package`. -/
structure Package where
  name : Str
  version : Str
  kind : PackageKind
deriving DecidableEq, Repr

def Package.isPypi (p : Package) : Bool :=
  match p.kind with
  | PackageKind.pypi => true
  | PackageKind.conda _ _ => false

/-- src/recipe.rs `impl Display for Package` (non-alternate form): the
string handed to the package installers. -/
def Package.display (p : Package) : Str :=
  match p.kind with
  | PackageKind.pypi => p.name ++ "==".data ++ p.version
  | PackageKind.conda b _ => p.name ++ "=".data ++ p.version ++ "=".data ++ b

/-- src/recipe.rs `Update` (named apart from the conda-recipe `Update`). -/
structure PkgUpdate where
  from' : Package
  to' : Package
deriving DecidableEq, Repr

/-- src/recipe.rs `RecipeDiff`. -/
structure RecipeDiff where
  adds : List Package
  updates : List PkgUpdate
  deletes : List Package
deriving DecidableEq, Repr

/-- The bootstrap names of the `collect_packages` sort comparator. -/
def isBootstrapName (s : Str) : Bool :=
  s = "pip".data || s = "wheel".data || s = "setuptools".data || s = "six".data

/-- The comparator passed to `pypi_install_pkgs.sort_by` in
`collect_packages` (src/action/install.rs lines 347-351), arm for arm:
* `("pip" | "wheel" | "setuptools" | "six", _) => Less`
* `(_, "pip" | "wheel" | "setuptools" | "six") => Less`
* `(_, _) => a.name.cmp(&b.name)` -/
def pypiCollectCmp (a b : Package) : Ordering :=
  if isBootstrapName a.name then Ordering.lt
  else if isBootstrapName b.name then Ordering.lt
  else compare a.name b.name

/-- The comparator of `pypi_adds.sort_by` in the main-binary installer
(src/main.rs lines 206-212), arm for arm:
* `("pip", _) => Less`
* `(_, "pip") => Greater`
* `("wheel" | "setuptools", _) => Less`
* `(_, "wheel" | "setuptools") => Greater`
* `(_, _) => a.name.cmp(&b.name)` -/
def pypiMainCmp (a b : Spec) : Ordering :=
  if a.name = "pip".data then Ordering.lt
  else if b.name = "pip".data then Ordering.gt
  else if a.name = "wheel".data ∨ a.name = "setuptools".data then Ordering.lt
  else if b.name = "wheel".data ∨ b.name = "setuptools".data then Ordering.gt
  else compare a.name b.name

/-- The comparator of `conda_adds.sort_by` in the main-binary installer
(src/main.rs lines 184-188): `python` first, then alphabetical. -/
def condaMainCmp (a b : Spec) : Ordering :=
  if a.name = "python".data then Ordering.lt
  else if b.name = "python".data then Ordering.gt
  else compare a.name b.name

/-- One insertion step of a stable insertion sort, operating on the
REVERSED already-sorted prefix: the new element shifts left past each
previous element `y` exactly while `cmp x y = Less`, as in the insertion
sort that Rust `slice::sort_by` runs on short slices. -/
def rustInsertRev {α : Type} (cmp : α → α → Ordering) (x : α) : List α → List α
  | [] => [x]
  | y :: ys => if cmp x y = Ordering.lt then y :: rustInsertRev cmp x ys else x :: y :: ys

/-- Stable insertion sort with a caller-supplied comparator: the model of
Rust `slice::sort_by` (for the short package lists at hand Rust's stable
sort IS insertion sort; for a comparator that is a strict weak order any
of its stable sorts agree with this one). -/
def rustSortBy {α : Type} (cmp : α → α → Ordering) (l : List α) : List α :=
  (l.foldl (fun acc x => rustInsertRev cmp x acc) []).reverse

/-! ## src/recipe.rs : Recipe and Recipe::diff (lines 76-131, 260-279)

Unlike `conda/recipe.rs`, the `Package` type of `recipe.rs` DERIVES
`PartialEq`, so equality compares every field, including the channel
inside `PackageKind::Conda`; `Recipe::diff` compares packages with that
derived equality. -/

/-- src/recipe.rs `Recipe` (the channels set plays no role in `diff`). -/
structure Recipe where
  channels : List Str
  packages : List (Str × Package)
deriving DecidableEq, Repr

/-- The loop body of `Recipe::diff` (src/recipe.rs lines 262-273): emit
an update when the name is present in `new` with a package that is
unequal under the DERIVED equality, or a delete when the name is absent
from `new`. -/
def recipeDiffOldStep (newPkgs : List (Str × Package)) (acc : RecipeDiff)
    (e : Str × Package) : RecipeDiff :=
  match lookupA newPkgs e.1 with
  | some newPkg =>
    if newPkg ≠ e.2 then { acc with updates := acc.updates ++ [⟨e.2, newPkg⟩] } else acc
  | none => { acc with deletes := acc.deletes ++ [e.2] }

/-- Contribution of one old entry to the updates list of `Recipe::diff`. -/
def recipeUpdOf (newPkgs : List (Str × Package)) (e : Str × Package) : List PkgUpdate :=
  match lookupA newPkgs e.1 with
  | some newPkg => if newPkg ≠ e.2 then [⟨e.2, newPkg⟩] else []
  | none => []

/-- Contribution of one old entry to the deletes list of `Recipe::diff`. -/
def recipeDelOf (newPkgs : List (Str × Package)) (e : Str × Package) : List Package :=
  match lookupA newPkgs e.1 with
  | some _ => []
  | none => [e.2]

/-- src/recipe.rs `Recipe::diff` (lines 260-279): one pass over the old
map emitting updates (under the derived inequality) and deletes, the new
entries whose name is absent from `old` become adds, then
`RecipeDiff::sort` orders each of the three lists by name. -/
def Recipe.diff (old new : Recipe) : RecipeDiff :=
  let acc := old.packages.foldl (recipeDiffOldStep new.packages) ⟨[], [], []⟩
  let adds := (new.packages.filter (fun e => !containsKeyA old.packages e.1)).map
    (fun e => e.2)
  ⟨rustSortBy (fun a b => compare a.name b.name) adds,
   rustSortBy (fun a b => compare a.from'.name b.from'.name) acc.updates,
   rustSortBy (fun a b => compare a.name b.name) acc.deletes⟩

theorem mem_rustInsertRev {α : Type} (cmp : α → α → Ordering) (a x : α) (l : List α) :
    x ∈ rustInsertRev cmp a l ↔ x = a ∨ x ∈ l := by
  induction l with
  | nil => simp [rustInsertRev]
  | cons y ys ih =>
    simp only [rustInsertRev]
    split_ifs
    · simp only [List.mem_cons, ih]
      tauto
    · simp [List.mem_cons]

theorem mem_foldl_insertRev {α : Type} (cmp : α → α → Ordering) (l acc : List α) (x : α) :
    x ∈ l.foldl (fun acc y => rustInsertRev cmp y acc) acc ↔ x ∈ acc ∨ x ∈ l := by
  induction l generalizing acc with
  | nil => simp
  | cons y ys ih =>
    rw [List.foldl_cons, ih]
    simp only [mem_rustInsertRev, List.mem_cons]
    tauto

/-- Sorting with `rustSortBy` permutes: membership is unchanged, for any
comparator. -/
theorem mem_rustSortBy {α : Type} (cmp : α → α → Ordering) (l : List α) (x : α) :
    x ∈ rustSortBy cmp l ↔ x ∈ l := by
  rw [rustSortBy, List.mem_reverse, mem_foldl_insertRev]
  simp

theorem recipeDiffOldStep_eq (newPkgs : List (Str × Package)) (acc : RecipeDiff)
    (e : Str × Package) :
    recipeDiffOldStep newPkgs acc e =
      ⟨acc.adds, acc.updates ++ recipeUpdOf newPkgs e,
        acc.deletes ++ recipeDelOf newPkgs e⟩ := by
  unfold recipeDiffOldStep recipeUpdOf recipeDelOf
  rcases lookupA newPkgs e.1 with _ | w
  · simp
  · by_cases hw : w = e.2 <;> simp [hw]

theorem foldl_recipeDiffOldStep (newPkgs : List (Str × Package))
    (old : List (Str × Package)) (acc : RecipeDiff) :
    old.foldl (recipeDiffOldStep newPkgs) acc =
      ⟨acc.adds, acc.updates ++ old.flatMap (recipeUpdOf newPkgs),
        acc.deletes ++ old.flatMap (recipeDelOf newPkgs)⟩ := by
  induction old generalizing acc with
  | nil => simp
  | cons e rest ih =>
    rw [List.foldl_cons, recipeDiffOldStep_eq, ih]
    simp [List.append_assoc]

def c7POld : Package :=
  ⟨"xz".data, "5.2.5".data, PackageKind.conda "h1de35cc_0".data "defaults".data⟩

def c7PNew : Package :=
  ⟨"xz".data, "5.2.5".data, PackageKind.conda "h1de35cc_0".data "conda-forge".data⟩

def c7ROld : Recipe := ⟨["defaults".data], [("xz".data, c7POld)]⟩

def c7RNew : Recipe := ⟨["conda-forge".data], [("xz".data, c7PNew)]⟩

/-- Counterexample to claim C7 for the recipe.rs code it cites: the xz
packages agree on name, version and build and differ only in channel,
yet the DERIVED `PartialEq` of `Package` makes them unequal, and
`Recipe::diff` emits an update record for them. -/
theorem spec_c7_cex :
    c7POld.name = c7PNew.name ∧ c7POld.version = c7PNew.version
    ∧ (∃ b c1 c2, c7POld.kind = PackageKind.conda b c1
        ∧ c7PNew.kind = PackageKind.conda b c2 ∧ c1 ≠ c2)
    ∧ c7POld ≠ c7PNew
    ∧ (Recipe.diff c7ROld c7RNew).updates = [⟨c7POld, c7PNew⟩] :=
  ⟨rfl, rfl,
   ⟨"h1de35cc_0".data, "defaults".data, "conda-forge".data, rfl, rfl, by decide⟩,
   by decide, by decide⟩

/-- Claim C7, amended: in conda/recipe.rs the hand-written `PartialEq`
for `Spec` ignores the channel — equality holds exactly on matching
name, version and build — and `CondaRecipe::diff` emits no update, add
or delete for a package whose identity is unchanged, even if its channel
differs.  In recipe.rs, however, `Package` DERIVES `PartialEq`, which
compares the channel inside `PackageKind::Conda`: two conda packages
differing only in channel are unequal, and `Recipe::diff` emits an
update record for such a channel-only change. -/
theorem spec_c7_amended :
    (∀ a b : Spec, Spec.specEq a b = true ↔
        a.name = b.name ∧ a.version = b.version ∧ a.build = b.build)
    ∧ (∀ (old new : CondaRecipe) (name : Str) (oldSpec newSpec : Spec),
        keysNodup old.specs →
        (∀ e ∈ old.specs, e.1 = e.2.name) →
        lookupA old.specs name = some oldSpec →
        lookupA new.specs name = some newSpec →
        Spec.specEq newSpec oldSpec = true →
        (∀ u ∈ (CondaRecipe.diff old new).conda.update, u.from'.name ≠ name)
        ∧ (∀ u ∈ (CondaRecipe.diff old new).pypi.update, u.from'.name ≠ name)
        ∧ (∀ s ∈ (CondaRecipe.diff old new).conda.delete, s.name ≠ name)
        ∧ (∀ s ∈ (CondaRecipe.diff old new).pypi.delete, s.name ≠ name)
        ∧ (∀ s ∈ (CondaRecipe.diff old new).conda.add, s.name ≠ name)
        ∧ (∀ s ∈ (CondaRecipe.diff old new).pypi.add, s.name ≠ name))
    ∧ (∀ (n v bd c1 c2 : Str), c1 ≠ c2 →
        (⟨n, v, PackageKind.conda bd c1⟩ : Package) ≠ ⟨n, v, PackageKind.conda bd c2⟩)
    ∧ (∀ (old new : Recipe) (name : Str) (po pn : Package),
        lookupA old.packages name = some po →
        lookupA new.packages name = some pn →
        po ≠ pn →
        (⟨po, pn⟩ : PkgUpdate) ∈ (Recipe.diff old new).updates) := by
  refine ⟨?_, ?_, ?_, ?_⟩
  · intro a b
    simp [Spec.specEq, and_assoc]
  · intro old new name oldSpec newSpec hnd hk ho hn heq
    have hmem : (name, oldSpec) ∈ old.specs := lookupA_mem ho
    rw [CondaRecipe.diff_eq]
    refine ⟨?_, ?_, ?_, ?_, ?_, ?_⟩
    · intro u hu hne
      obtain ⟨e, he, hue⟩ := List.mem_flatMap.mp hu
      unfold condaUpdateOf at hue
      rcases hl : lookupA new.specs e.1 with _ | w
      · rw [hl] at hue; cases hue
      · rw [hl] at hue
        split_ifs at hue <;> simp at hue
        obtain ⟨hwne, hu2⟩ := hue
        have hfrom : u.from' = e.2 := by rw [hu2]
        have hekey : e.1 = name := by rw [hk e he, ← hfrom, hne]
        have he2 : e.2 = oldSpec := by
          refine keysNodup_eq hnd ?_ hmem
          have hee : e = (e.1, e.2) := rfl
          rw [hee, hekey] at he
          exact he
        rw [hekey, hn] at hl
        injection hl with hw
        rw [← hw, he2, heq] at hwne
        cases hwne
    · intro u hu hne
      obtain ⟨e, he, hue⟩ := List.mem_flatMap.mp hu
      unfold pypiUpdateOf at hue
      rcases hl : lookupA new.specs e.1 with _ | w
      · rw [hl] at hue; cases hue
      · rw [hl] at hue
        split_ifs at hue <;> simp at hue
        obtain ⟨hwne, hu2⟩ := hue
        have hfrom : u.from' = e.2 := by rw [hu2]
        have hekey : e.1 = name := by rw [hk e he, ← hfrom, hne]
        have he2 : e.2 = oldSpec := by
          refine keysNodup_eq hnd ?_ hmem
          have hee : e = (e.1, e.2) := rfl
          rw [hee, hekey] at he
          exact he
        rw [hekey, hn] at hl
        injection hl with hw
        rw [← hw, he2, heq] at hwne
        cases hwne
    · intro s hs hne
      obtain ⟨e, he, hse⟩ := List.mem_flatMap.mp hs
      unfold condaDeleteOf at hse
      rcases hl : lookupA new.specs e.1 with _ | w
      · rw [hl] at hse
        split_ifs at hse <;> simp at hse
        subst hse
        rw [hk e he, hne] at hl
        rw [hl] at hn
        cases hn
      · rw [hl] at hse; cases hse
    · intro s hs hne
      obtain ⟨e, he, hse⟩ := List.mem_flatMap.mp hs
      unfold pypiDeleteOf at hse
      rcases hl : lookupA new.specs e.1 with _ | w
      · rw [hl] at hse
        split_ifs at hse <;> simp at hse
        subst hse
        rw [hk e he, hne] at hl
        rw [hl] at hn
        cases hn
      · rw [hl] at hse; cases hse
    · intro s hs hne
      obtain ⟨e, he, hse⟩ := List.mem_flatMap.mp hs
      unfold condaAddOf at hse
      split_ifs at hse with h1 h2 <;> simp at hse
      subst hse
      rw [hne] at h1
      exact h1 (lookupA_containsKeyA ho)
    · intro s hs hne
      obtain ⟨e, he, hse⟩ := List.mem_flatMap.mp hs
      unfold pypiAddOf at hse
      split_ifs at hse with h1 h2 <;> simp at hse
      subst hse
      rw [hne] at h1
      exact h1 (lookupA_containsKeyA ho)
  · intro n v bd c1 c2 hne h
    injection h with h1 h2 h3
    injection h3 with h4 h5
    exact hne h5
  · intro old new name po pn ho hn hne
    have hmem : (name, po) ∈ old.packages := lookupA_mem ho
    show (⟨po, pn⟩ : PkgUpdate) ∈ rustSortBy
      (fun a b => compare a.from'.name b.from'.name)
      (old.packages.foldl (recipeDiffOldStep new.packages) ⟨[], [], []⟩).updates
    rw [mem_rustSortBy, foldl_recipeDiffOldStep]
    simp only [List.nil_append]
    refine List.mem_flatMap.mpr ⟨(name, po), hmem, ?_⟩
    show (⟨po, pn⟩ : PkgUpdate) ∈ recipeUpdOf new.packages (name, po)
    unfold recipeUpdOf
    simp only [hn]
    rw [if_pos (fun h => hne h.symm)]
    exact List.mem_singleton.mpr rfl

/-- Concrete instance of the amended claim C7: on the conda/recipe.rs
side a channel change alone (defaults to conda-forge) produces no record
for the xz package, while on the recipe.rs side the same channel-only
change makes `Recipe::diff` emit an update. -/
theorem spec_c7_witness :
    ((∀ u ∈ (CondaRecipe.diff
        ⟨[("xz".data, ⟨"xz".data, "5.2.5".data, "h1de35cc_0".data, none⟩)]⟩
        ⟨[("xz".data, ⟨"xz".data, "5.2.5".data, "h1de35cc_0".data,
            some "conda-forge".data⟩)]⟩).conda.update, u.from'.name ≠ "xz".data)
    ∧ (∀ u ∈ (CondaRecipe.diff
        ⟨[("xz".data, ⟨"xz".data, "5.2.5".data, "h1de35cc_0".data, none⟩)]⟩
        ⟨[("xz".data, ⟨"xz".data, "5.2.5".data, "h1de35cc_0".data,
            some "conda-forge".data⟩)]⟩).pypi.update, u.from'.name ≠ "xz".data)
    ∧ (∀ s ∈ (CondaRecipe.diff
        ⟨[("xz".data, ⟨"xz".data, "5.2.5".data, "h1de35cc_0".data, none⟩)]⟩
        ⟨[("xz".data, ⟨"xz".data, "5.2.5".data, "h1de35cc_0".data,
            some "conda-forge".data⟩)]⟩).conda.delete, s.name ≠ "xz".data)
    ∧ (∀ s ∈ (CondaRecipe.diff
        ⟨[("xz".data, ⟨"xz".data, "5.2.5".data, "h1de35cc_0".data, none⟩)]⟩
        ⟨[("xz".data, ⟨"xz".data, "5.2.5".data, "h1de35cc_0".data,
            some "conda-forge".data⟩)]⟩).pypi.delete, s.name ≠ "xz".data)
    ∧ (∀ s ∈ (CondaRecipe.diff
        ⟨[("xz".data, ⟨"xz".data, "5.2.5".data, "h1de35cc_0".data, none⟩)]⟩
        ⟨[("xz".data, ⟨"xz".data, "5.2.5".data, "h1de35cc_0".data,
            some "conda-forge".data⟩)]⟩).conda.add, s.name ≠ "xz".data)
    ∧ (∀ s ∈ (CondaRecipe.diff
        ⟨[("xz".data, ⟨"xz".data, "5.2.5".data, "h1de35cc_0".data, none⟩)]⟩
        ⟨[("xz".data, ⟨"xz".data, "5.2.5".data, "h1de35cc_0".data,
            some "conda-forge".data⟩)]⟩).pypi.add, s.name ≠ "xz".data))
    ∧ (⟨c7POld, c7PNew⟩ : PkgUpdate) ∈ (Recipe.diff c7ROld c7RNew).updates :=
  ⟨spec_c7_amended.2.1
    ⟨[("xz".data, ⟨"xz".data, "5.2.5".data, "h1de35cc_0".data, none⟩)]⟩
    ⟨[("xz".data, ⟨"xz".data, "5.2.5".data, "h1de35cc_0".data, some "conda-forge".data⟩)]⟩
    "xz".data ⟨"xz".data, "5.2.5".data, "h1de35cc_0".data, none⟩
    ⟨"xz".data, "5.2.5".data, "h1de35cc_0".data, some "conda-forge".data⟩
    (by decide) (by decide) (by decide) (by decide) (by decide),
   spec_c7_amended.2.2.2 c7ROld c7RNew "xz".data c7POld c7PNew
    (by decide) (by decide) (by decide)⟩

/-- src/action/install.rs `collect_packages` (lines 279-359): distribute
adds, updates and deletes of the diff over the four per-kind execution
lists, splitting each update into a delete of `from` and an install of
`to` (except a pypi-to-pypi update, which only installs `to`), then sort
the pypi install list with `pypiCollectCmp`. -/
structure CollectedPackages where
  conda_install_pkgs : List Package
  conda_delete_pkgs : List Package
  pypi_install_pkgs : List Package
  pypi_delete_pkgs : List Package
deriving DecidableEq, Repr

def collect_packages (diff : RecipeDiff) : CollectedPackages :=
  let conda_install := diff.adds.filter (fun p => !p.isPypi)
    ++ diff.updates.filterMap (fun u => if !u.to'.isPypi then some u.to' else none)
  let pypi_install := diff.adds.filter (fun p => p.isPypi)
    ++ diff.updates.filterMap (fun u => if u.to'.isPypi then some u.to' else none)
  let conda_delete := diff.updates.filterMap
      (fun u => if !u.from'.isPypi then some u.from' else none)
    ++ diff.deletes.filter (fun p => !p.isPypi)
  let pypi_delete := diff.updates.filterMap
      (fun u => if u.from'.isPypi && !u.to'.isPypi then some u.from' else none)
    ++ diff.deletes.filter (fun p => p.isPypi)
  { conda_install_pkgs := conda_install
    conda_delete_pkgs := conda_delete
    pypi_install_pkgs := rustSortBy pypiCollectCmp pypi_install
    pypi_delete_pkgs := pypi_delete }

/-- Claim C8 fails on the code (code bug).  The `collect_packages`
comparator answers `Less` whenever EITHER argument is a bootstrap name
(its second match arm yields `Less` where the intended order needs
`Greater`), so it is not antisymmetric: `pip` versus `wheel` compares
`Less` in both directions, and a stable sort of the pre-sort order
`[pip, wheel]` leaves `wheel` before `pip`.  The main-binary variant
additionally never special-cases `six`, and compares `wheel` versus
`setuptools` as `Less` in both directions, so neither the claimed
pip-wheel-setuptools-six order nor six-before-others holds. -/
theorem spec_c8_bug :
    pypiCollectCmp ⟨"wheel".data, "0.37.1".data, PackageKind.pypi⟩
        ⟨"pip".data, "22.1.2".data, PackageKind.pypi⟩ = Ordering.lt
    ∧ pypiCollectCmp ⟨"pip".data, "22.1.2".data, PackageKind.pypi⟩
        ⟨"wheel".data, "0.37.1".data, PackageKind.pypi⟩ = Ordering.lt
    ∧ (collect_packages
        ⟨[⟨"pip".data, "22.1.2".data, PackageKind.pypi⟩,
          ⟨"wheel".data, "0.37.1".data, PackageKind.pypi⟩], [], []⟩).pypi_install_pkgs =
      [⟨"wheel".data, "0.37.1".data, PackageKind.pypi⟩,
       ⟨"pip".data, "22.1.2".data, PackageKind.pypi⟩]
    ∧ rustSortBy pypiMainCmp
        [⟨"wheel".data, "0.37.1".data, "pyhd3eb1b0_0".data, some pypiChannel⟩,
         ⟨"setuptools".data, "61.2.0".data, "py37hecd8cb5_0".data, some pypiChannel⟩] =
      [⟨"setuptools".data, "61.2.0".data, "py37hecd8cb5_0".data, some pypiChannel⟩,
       ⟨"wheel".data, "0.37.1".data, "pyhd3eb1b0_0".data, some pypiChannel⟩]
    ∧ rustSortBy pypiMainCmp
        [⟨"six".data, "1.16.0".data, "pypi_0".data, some pypiChannel⟩,
         ⟨"django".data, "4.0.6".data, "pypi_0".data, some pypiChannel⟩] =
      [⟨"django".data, "4.0.6".data, "pypi_0".data, some pypiChannel⟩,
       ⟨"six".data, "1.16.0".data, "pypi_0".data, some pypiChannel⟩] := by
  decide

/-! ## Claim C3: the pypi install retry loop (src/action/install.rs 233-270) -/

/-- The substring whose presence makes a pip failure non-transient. -/
def notFindAVersion : Str := "not find a version".data

/-- src/action/install.rs `max_failed`. -/
def maxFailed : Nat := 50

/-- Observable outcome of the pypi install loop: the returned result, the
number of `pip install` invocations performed and the number of times a
package was pushed back to the end of the queue. -/
structure PipLoopOut where
  result : Except Str Unit
  calls : Nat
  requeues : Nat

/-- The `while !pkgs.is_empty()` loop of src/action/install.rs lines
233-270.  `run i pkg` is the outcome of the `i`-th `conda run -n env pip
install --no-deps {pkg}` invocation.  `budget` stands for
`max_failed - current_failed` (the source increments `current_failed` and
aborts when it reaches `max_failed == 50`; from its entry state
`current_failed = 0` that is exactly `budget = 1` here).  `fuel` is an
upper bound on the remaining iterations, consumed only to make the
recursion structural; `pipInstall` below supplies enough fuel for the
whole run, so the fuel-exhausted branch is unreachable from it. -/
def pipInstallLoop (run : Nat → Package → Except Str Unit) :
    Nat → List Package → Nat → Nat → Nat → PipLoopOut
  | 0, _, _, calls, reqs => ⟨Except.ok (), calls, reqs⟩
  | _ + 1, [], _, calls, reqs => ⟨Except.ok (), calls, reqs⟩
  | fuel + 1, pkg :: rest, budget, calls, reqs =>
    match run calls pkg with
    | Except.ok _ => pipInstallLoop run fuel rest budget (calls + 1) reqs
    | Except.error err =>
      if containsSub err notFindAVersion then ⟨Except.error err, calls + 1, reqs⟩
      else if budget ≤ 1 then ⟨Except.error err, calls + 1, reqs⟩
      else pipInstallLoop run fuel (rest ++ [pkg]) (budget - 1) (calls + 1) (reqs + 1)

/-- Entry point of the retry loop: fresh failure budget of 50, no calls
performed yet. -/
def pipInstall (run : Nat → Package → Except Str Unit) (pkgs : List Package) : PipLoopOut :=
  pipInstallLoop run (pkgs.length + maxFailed) pkgs maxFailed 0 0

/-- Any run of the loop performs at most `budget - 1` additional
re-enqueues. -/
theorem pipInstallLoop_requeues_le (run : Nat → Package → Except Str Unit) :
    ∀ (fuel : Nat) (pkgs : List Package) (budget calls reqs : Nat),
      (pipInstallLoop run fuel pkgs budget calls reqs).requeues ≤ reqs + (budget - 1) := by
  intro fuel
  induction fuel with
  | zero => intro pkgs budget calls reqs; simp [pipInstallLoop]
  | succ fuel ih =>
    intro pkgs budget calls reqs
    match pkgs with
    | [] => simp [pipInstallLoop]
    | pkg :: rest =>
      rw [pipInstallLoop]
      rcases hrun : run calls pkg with err | v
      · by_cases hnv : containsSub err notFindAVersion = true
        · simp [hnv]
        · by_cases hb : budget ≤ 1
          · simp [hnv, hb]
          · have hred : (match (Except.error err : Except Str Unit) with
                | Except.ok _ => pipInstallLoop run fuel rest budget (calls + 1) reqs
                | Except.error err =>
                  if containsSub err notFindAVersion = true then
                    PipLoopOut.mk (Except.error err) (calls + 1) reqs
                  else if budget ≤ 1 then PipLoopOut.mk (Except.error err) (calls + 1) reqs
                  else pipInstallLoop run fuel (rest ++ [pkg]) (budget - 1) (calls + 1)
                    (reqs + 1)) =
                pipInstallLoop run fuel (rest ++ [pkg]) (budget - 1) (calls + 1) (reqs + 1) := by
              simp [hnv, hb]
            rw [hred]
            calc (pipInstallLoop run fuel (rest ++ [pkg]) (budget - 1) (calls + 1)
                    (reqs + 1)).requeues
                ≤ (reqs + 1) + (budget - 1 - 1) := ih _ _ _ _
              _ ≤ reqs + (budget - 1) := by omega
      · exact ih rest budget (calls + 1) reqs

/-- Claim C3 is false as stated.  With a queue of one package and every
install failing with the transient error `boom`, the run performs exactly
50 `pip install` invocations and 49 re-enqueues and then aborts with that
error: the 50th transient failure is NOT re-enqueued (so not every
transient failure re-enqueues), and the abort fires at the 50th failure —
a budget of 50 re-enqueues, aborting only when exceeded, would instead
re-enqueue a 50th time and perform a 51st call. -/
theorem spec_c3_cex :
    (pipInstall (fun _ _ => Except.error "boom".data)
      [⟨"django".data, "4.0.6".data, PackageKind.pypi⟩]).calls = 50
    ∧ (pipInstall (fun _ _ => Except.error "boom".data)
      [⟨"django".data, "4.0.6".data, PackageKind.pypi⟩]).requeues = 49
    ∧ (pipInstall (fun _ _ => Except.error "boom".data)
      [⟨"django".data, "4.0.6".data, PackageKind.pypi⟩]).result =
        Except.error "boom".data := by
  refine ⟨rfl, rfl, rfl⟩

/-- Claim C3 (amended): a failure whose text contains `not find a version`
aborts at once, with no re-enqueue; any other failure re-enqueues the
package at the end of the queue while more than one unit of the failure
budget remains, and aborts with that error — without re-enqueueing — on
the 50th failure of the run (budget exhausted); consequently a run makes
at most 49 re-enqueues in total. -/
theorem spec_c3_amended :
    (∀ (run : Nat → Package → Except Str Unit) (fuel : Nat) (pkg : Package)
        (rest : List Package) (budget calls reqs : Nat) (err : Str),
      run calls pkg = Except.error err →
      containsSub err notFindAVersion = true →
      pipInstallLoop run (fuel + 1) (pkg :: rest) budget calls reqs =
        ⟨Except.error err, calls + 1, reqs⟩)
    ∧ (∀ (run : Nat → Package → Except Str Unit) (fuel : Nat) (pkg : Package)
        (rest : List Package) (budget calls reqs : Nat) (err : Str),
      run calls pkg = Except.error err →
      containsSub err notFindAVersion = false →
      budget ≤ 1 →
      pipInstallLoop run (fuel + 1) (pkg :: rest) budget calls reqs =
        ⟨Except.error err, calls + 1, reqs⟩)
    ∧ (∀ (run : Nat → Package → Except Str Unit) (fuel : Nat) (pkg : Package)
        (rest : List Package) (budget calls reqs : Nat) (err : Str),
      run calls pkg = Except.error err →
      containsSub err notFindAVersion = false →
      2 ≤ budget →
      pipInstallLoop run (fuel + 1) (pkg :: rest) budget calls reqs =
        pipInstallLoop run fuel (rest ++ [pkg]) (budget - 1) (calls + 1) (reqs + 1))
    ∧ (∀ (run : Nat → Package → Except Str Unit) (pkgs : List Package),
      (pipInstall run pkgs).requeues ≤ 49) := by
  refine ⟨?_, ?_, ?_, ?_⟩
  · intro run fuel pkg rest budget calls reqs err hrun hnv
    rw [pipInstallLoop, hrun]
    simp [hnv]
  · intro run fuel pkg rest budget calls reqs err hrun hnv hb
    rw [pipInstallLoop, hrun]
    simp [hnv, hb]
  · intro run fuel pkg rest budget calls reqs err hrun hnv hb
    rw [pipInstallLoop, hrun]
    have : ¬ budget ≤ 1 := by omega
    simp [hnv, this]
  · intro run pkgs
    have := pipInstallLoop_requeues_le run (pkgs.length + maxFailed) pkgs maxFailed 0 0
    simpa [maxFailed] using this

/-- Concrete instance of the amended claim C3: a transient failure with
budget left re-enqueues at the end of the queue. -/
theorem spec_c3_witness :
    pipInstallLoop (fun _ _ => Except.error "x".data) 4
        [⟨"a".data, "1".data, PackageKind.pypi⟩, ⟨"b".data, "1".data, PackageKind.pypi⟩]
        5 0 0 =
      pipInstallLoop (fun _ _ => Except.error "x".data) 3
        ([⟨"b".data, "1".data, PackageKind.pypi⟩] ++ [⟨"a".data, "1".data, PackageKind.pypi⟩])
        4 1 1 :=
  spec_c3_amended.2.2.1 (fun _ _ => Except.error "x".data) 3
    ⟨"a".data, "1".data, PackageKind.pypi⟩
    [⟨"b".data, "1".data, PackageKind.pypi⟩] 5 0 0 "x".data rfl (by decide) (by decide)

/-! ## src/main.rs `binary_replace` (lines 590-609)

Inputs are opaque bytes, modelled as `List Nat` with `0` the NUL byte.
The Rust function builds the regex `escape(from) + "([^\0]*?)\0"` and runs
`replace_all` over the data; a match therefore starts at every position
(scanning left to right, non-overlapping) where the literal placeholder
occurs with some NUL byte after it, and — the `[^\0]*?` part being lazy
and NUL-free — extends exactly to the FIRST NUL at or after the end of the
placeholder.  Per match the closure replaces every occurrence of the
placeholder inside the captured bytes with the target (an inner
`replace_all` on the literal pattern), panics with `Padding Error` if the
result outgrew the match, and right-pads it with NUL bytes otherwise.
`scanChunks` enumerates the matches, `rewriteRegion` is the closure (with
`none` standing for the panic) and `processChunks` splices.  The
`pat ≠ []` guards exist only to make the recursions terminate; the
program never calls the rewriter with an empty placeholder. -/

abbrev Bytes := List Nat

/-- `regex::bytes::Regex::new(&escape(from)).replace_all(data, to)` for a
non-empty literal pattern: replace each leftmost occurrence and resume
after the replacement. -/
def replaceAllLit (pat rep : Bytes) : Bytes → Bytes
  | [] => []
  | d :: ds =>
    if h : pat ≠ [] ∧ pat.isPrefixOf (d :: ds) then
      rep ++ replaceAllLit pat rep (List.drop pat.length (d :: ds))
    else
      d :: replaceAllLit pat rep ds
termination_by l => l.length
decreasing_by
  · have hpos : 0 < pat.length := List.length_pos.mpr h.1
    simp only [List.length_drop, List.length_cons]
    omega
  · simp

/-- A piece of the input as the regex engine sees it: a byte outside every
match, or one whole matched region. -/
inductive BinChunk
  | raw (b : Nat)
  | region (r : Bytes)
deriving DecidableEq, Repr

/-- Split the input into non-match bytes and matched regions of
`escape(pat) + "([^\0]*?)\0"`: a match starts wherever the placeholder is
a prefix of the remaining input and a NUL exists later, and runs to the
first NUL at or after the placeholder. -/
def scanChunks (pat : Bytes) : Bytes → List BinChunk
  | [] => []
  | d :: ds =>
    if h : pat ≠ [] ∧ pat.isPrefixOf (d :: ds) ∧
        (List.drop pat.length (d :: ds)).contains 0 then
      let rest := List.drop pat.length (d :: ds)
      let mid := rest.takeWhile (fun b => b != 0)
      let after := rest.dropWhile (fun b => b != 0)
      BinChunk.region (pat ++ mid ++ after.take 1) :: scanChunks pat (after.drop 1)
    else
      BinChunk.raw d :: scanChunks pat ds
termination_by l => l.length
decreasing_by
  · have hpos : 0 < pat.length := List.length_pos.mpr h.1
    have h1 : ((List.drop pat.length (d :: ds)).dropWhile (fun b => b != 0)).length ≤
        (List.drop pat.length (d :: ds)).length :=
      (List.dropWhile_sublist (p := fun b => b != 0)).length_le
    simp only [List.length_drop, List.length_cons] at *
    omega
  · simp

/-- The closure handed to `replace_all` (src/main.rs lines 594-606):
replace every placeholder occurrence inside the captured region, fail if
that outgrew the region, right-pad with NULs otherwise. -/
def rewriteRegion (pat rep r : Bytes) : Option Bytes :=
  let replaced := replaceAllLit pat rep r
  if r.length < replaced.length then none
  else some (replaced ++ List.replicate (r.length - replaced.length) 0)

/-- Splice the rewritten regions between the untouched bytes; any panic
(`none`) aborts the whole rewrite. -/
def processChunks (pat rep : Bytes) : List BinChunk → Option Bytes
  | [] => some []
  | BinChunk.raw b :: cs => (processChunks pat rep cs).map (fun t => b :: t)
  | BinChunk.region r :: cs =>
    match rewriteRegion pat rep r, processChunks pat rep cs with
    | some rr, some t => some (rr ++ t)
    | _, _ => none

/-- src/main.rs `binary_replace`. -/
def binary_replace (pat rep data : Bytes) : Option Bytes :=
  processChunks pat rep (scanChunks pat data)

/-- The bytes a chunk list stands for. -/
def joinChunks : List BinChunk → Bytes
  | [] => []
  | BinChunk.raw b :: cs => b :: joinChunks cs
  | BinChunk.region r :: cs => r ++ joinChunks cs

/-- Position mask of the chunk decomposition: `true` at positions covered
by a matched region. -/
def chunkMask : List BinChunk → List Bool
  | [] => []
  | BinChunk.raw _ :: cs => false :: chunkMask cs
  | BinChunk.region r :: cs => List.replicate r.length true ++ chunkMask cs

/-- Declarative leftmost replace-all, written from the specification: the
output arises from the input by replacing every leftmost non-overlapping
occurrence of the placeholder with the target (not only the first). -/
inductive RepAll (pat rep : Bytes) : Bytes → Bytes → Prop
  | noOcc (xs : Bytes) : (∀ a b : Bytes, xs ≠ a ++ pat ++ b) → RepAll pat rep xs xs
  | occ (a b out : Bytes) :
      (∀ a' b' : Bytes, a ++ pat ++ b = a' ++ pat ++ b' → a.length ≤ a'.length) →
      RepAll pat rep b out →
      RepAll pat rep (a ++ pat ++ b) (a ++ rep ++ out)

theorem RepAll.consNotPrefix {pat rep : Bytes} {d : Nat} {ds out : Bytes}
    (hpre : ¬ pat <+: (d :: ds)) (h : RepAll pat rep ds out) :
    RepAll pat rep (d :: ds) (d :: out) := by
  cases h with
  | noOcc xs hno =>
    refine RepAll.noOcc _ ?_
    intro a b hab
    cases a with
    | nil =>
      simp only [List.nil_append] at hab
      exact hpre ⟨b, hab.symm⟩
    | cons x a' =>
      simp only [List.cons_append] at hab
      exact hno a' b (List.cons.injEq _ _ _ _ ▸ hab).2
  | occ a b out hmin hrec =>
    have hin : d :: (a ++ pat ++ b) = (d :: a) ++ pat ++ b := by simp
    have hout : d :: (a ++ rep ++ out) = (d :: a) ++ rep ++ out := by simp
    rw [hin, hout]
    refine RepAll.occ _ _ _ ?_ hrec
    intro a' b' heq
    cases a' with
    | nil =>
      exfalso
      apply hpre
      simp only [List.nil_append] at heq
      exact ⟨b', heq.symm ▸ (by simp)⟩
    | cons x a'' =>
      simp only [List.cons_append, List.cons.injEq] at heq
      have := hmin a'' b' heq.2
      simp only [List.length_cons]
      omega

theorem replaceAllLit_repAll (pat rep : Bytes) (hp : pat ≠ []) (xs : Bytes) :
    RepAll pat rep xs (replaceAllLit pat rep xs) := by
  induction xs using replaceAllLit.induct pat rep with
  | case1 =>
    rw [replaceAllLit]
    refine RepAll.noOcc [] ?_
    intro a b hab
    have hlen := congrArg List.length hab
    simp at hlen
    exact hp (List.length_eq_zero.mp (by omega))
  | case2 d ds h ih =>
    rw [replaceAllLit, dif_pos h]
    obtain ⟨t, ht⟩ := List.isPrefixOf_iff_prefix.mp h.2
    have hdrop : List.drop pat.length (d :: ds) = t := by
      rw [← ht]; exact List.drop_left _ _
    have hshape : d :: ds = [] ++ pat ++ t := by simp [ht]
    rw [hdrop]
    have hout : rep ++ replaceAllLit pat rep t = [] ++ rep ++ replaceAllLit pat rep t := by simp
    rw [hshape, hout]
    refine RepAll.occ [] t _ (fun a' b' _ => Nat.zero_le _) ?_
    rw [← hdrop]
    exact ih
  | case3 d ds h ih =>
    rw [replaceAllLit, dif_neg h]
    have hnpre : ¬ pat <+: (d :: ds) := by
      intro hcon
      exact h ⟨hp, List.isPrefixOf_iff_prefix.mpr hcon⟩
    exact RepAll.consNotPrefix hnpre ih

/-- Inversion of the replace-all relation. -/
theorem RepAll.inv {pat rep xs o : Bytes} (h : RepAll pat rep xs o) :
    (o = xs ∧ ∀ a b, xs ≠ a ++ pat ++ b) ∨
    (∃ a b out, xs = a ++ pat ++ b ∧ o = a ++ rep ++ out ∧
      (∀ a' b', a ++ pat ++ b = a' ++ pat ++ b' → a.length ≤ a'.length) ∧
      RepAll pat rep b out) := by
  cases h with
  | noOcc ys hno => exact Or.inl ⟨rfl, hno⟩
  | occ a b out hmin hrec => exact Or.inr ⟨a, b, out, rfl, rfl, hmin, hrec⟩

/-- The declarative replace-all relation is deterministic. -/
theorem RepAll.unique {pat rep : Bytes} {xs o₁ o₂ : Bytes}
    (h1 : RepAll pat rep xs o₁) (h2 : RepAll pat rep xs o₂) : o₁ = o₂ := by
  induction h1 generalizing o₂ with
  | noOcc ys hno =>
    rcases RepAll.inv h2 with ⟨rfl, _⟩ | ⟨a, b, out, hxs, _, _, _⟩
    · rfl
    · exact absurd hxs (hno a b)
  | occ a b out hmin hrec ih =>
    rcases RepAll.inv h2 with ⟨rfl, hno⟩ | ⟨a', b', out', hxs, ho2, hmin', hrec'⟩
    · exact absurd rfl (hno a b)
    · have hlen : a.length = a'.length :=
        Nat.le_antisymm (hmin a' b' hxs) (hmin' a b hxs.symm)
      obtain ⟨haa, hbb⟩ := List.append_inj hxs (by simp [hlen])
      obtain ⟨ha2, hpp⟩ := List.append_inj haa hlen
      subst ha2
      subst hbb
      rw [ho2, ih hrec']

/-- For a NUL-free non-empty pattern, the literal replace-all keeps a
trailing NUL byte in place. -/
theorem replaceAllLit_trailing_zero (pat rep : Bytes) (hp : pat ≠ []) (h0 : ¬ 0 ∈ pat) :
    ∀ xs : Bytes, (∃ ys, xs = ys ++ [0]) →
      ∃ zs, replaceAllLit pat rep xs = zs ++ [0] := by
  intro xs
  induction xs using replaceAllLit.induct pat rep with
  | case1 =>
    rintro ⟨ys, hys⟩
    exact absurd (congrArg List.length hys) (by simp)
  | case2 d ds h ih =>
    rintro ⟨ys, hys⟩
    rw [replaceAllLit, dif_pos h]
    obtain ⟨t, ht⟩ := List.isPrefixOf_iff_prefix.mp h.2
    have hdrop : List.drop pat.length (d :: ds) = t := by
      rw [← ht]; exact List.drop_left _ _
    have htne : t ≠ [] := by
      intro hnil
      rw [hnil, List.append_nil] at ht
      rw [ht] at h0
      exact h0 (by rw [hys]; simp)
    have htz : ∃ ys', t = ys' ++ [0] := by
      have hlast : (d :: ds).getLast? = some 0 := by
        rw [hys]; exact List.getLast?_concat ys
      rw [← ht, List.getLast?_append_of_ne_nil pat htne] at hlast
      exact List.getLast?_eq_some_iff.mp hlast
    obtain ⟨zs, hzs⟩ := ih (by rw [hdrop]; exact htz)
    rw [hzs]
    exact ⟨rep ++ zs, by simp⟩
  | case3 d ds h ih =>
    rintro ⟨ys, hys⟩
    rw [replaceAllLit, dif_neg h]
    cases ys with
    | nil =>
      simp at hys
      obtain ⟨rfl, rfl⟩ := hys
      exact ⟨[], by simp [replaceAllLit]⟩
    | cons y ys' =>
      simp only [List.cons_append, List.cons.injEq] at hys
      obtain ⟨rfl, hds⟩ := hys
      obtain ⟨zs, hzs⟩ := ih ⟨ys', hds⟩
      exact ⟨d :: zs, by rw [hzs]; simp⟩

/-- Every region the scan finds is the placeholder, then a NUL-free
middle, then the terminating NUL. -/
theorem scanChunks_region_shape (pat : Bytes) :
    ∀ data r, BinChunk.region r ∈ scanChunks pat data →
      ∃ mid, r = pat ++ mid ++ [0] ∧ ∀ b ∈ mid, b ≠ 0 := by
  intro data
  induction data using scanChunks.induct pat with
  | case1 =>
    intro r hr
    rw [scanChunks] at hr
    cases hr
  | case2 d ds h rest after ih =>
    intro r hr
    rw [scanChunks, dif_pos h] at hr
    simp only [List.mem_cons] at hr
    rcases hr with hr | hr
    · have hafter : (List.drop pat.length (d :: ds)).dropWhile (fun b => b != 0) ≠ [] := by
        intro hnil
        have hall := List.dropWhile_eq_nil_iff.mp hnil
        have h0m : (0 : Nat) ∈ List.drop pat.length (d :: ds) := by
          have := h.2.2
          simpa [List.elem_iff] using this
        have := hall 0 h0m
        simp at this
      obtain ⟨x, after', hx⟩ := List.exists_cons_of_ne_nil hafter
      have hx0 : x = 0 := by
        have h2 := List.head_dropWhile_not (fun b => b != 0) (List.drop pat.length (d :: ds))
          (by rw [hx]; simp)
        simp only [hx, List.head_cons] at h2
        simpa using h2
      refine ⟨(List.drop pat.length (d :: ds)).takeWhile (fun b => b != 0), ?_, ?_⟩
      · rw [BinChunk.region.injEq] at hr
        subst hr
        rw [hx, hx0]
        simp
      · intro b hb
        have := List.mem_takeWhile_imp hb
        simpa using this
    · exact ih r hr
  | case3 d ds h ih =>
    intro r hr
    rw [scanChunks, dif_neg h] at hr
    simp only [List.mem_cons] at hr
    rcases hr with hr | hr
    · cases hr
    · exact ih r hr

/-- The chunks cover the input exactly. -/
theorem joinChunks_scanChunks (pat : Bytes) :
    ∀ data, joinChunks (scanChunks pat data) = data := by
  intro data
  induction data using scanChunks.induct pat with
  | case1 => rw [scanChunks]; rfl
  | case2 d ds h rest after ih =>
    rw [scanChunks, dif_pos h]
    show (pat ++ _ ++ _) ++ _ = _
    rw [ih]
    obtain ⟨t, ht⟩ := List.isPrefixOf_iff_prefix.mp h.2.1
    have hdrop : List.drop pat.length (d :: ds) = t := by
      rw [← ht]; exact List.drop_left _ _
    simp only [List.append_assoc]
    rw [List.take_append_drop, List.takeWhile_append_dropWhile, hdrop, ht]
  | case3 d ds h ih =>
    rw [scanChunks, dif_neg h]
    show d :: joinChunks _ = _
    rw [ih]

/-- A successful region rewrite preserves the region's length. -/
theorem rewriteRegion_length {pat rep r rr : Bytes}
    (h : rewriteRegion pat rep r = some rr) : rr.length = r.length := by
  simp only [rewriteRegion] at h
  split_ifs at h with hlt
  cases h
  simp only [List.length_append, List.length_replicate]
  omega

/-- A region rewrite fails exactly when the inner replace-all outgrew the
region. -/
theorem rewriteRegion_none_iff {pat rep r : Bytes} :
    rewriteRegion pat rep r = none ↔ r.length < (replaceAllLit pat rep r).length := by
  simp only [rewriteRegion]
  split_ifs with hlt <;> simp [hlt]

/-- Splicing preserves the total length. -/
theorem processChunks_length (pat rep : Bytes) :
    ∀ (cs : List BinChunk) (out : Bytes), processChunks pat rep cs = some out →
      out.length = (joinChunks cs).length := by
  intro cs
  induction cs with
  | nil => intro out h; cases h; rfl
  | cons c cs ih =>
    intro out h
    match c with
    | BinChunk.raw b =>
      rw [processChunks] at h
      rcases hrec : processChunks pat rep cs with _ | t <;> rw [hrec] at h
      · cases h
      · simp only [Option.map] at h
        cases h
        simp [joinChunks, ih t hrec]
    | BinChunk.region r =>
      rw [processChunks] at h
      rcases hrw : rewriteRegion pat rep r with _ | rr <;>
        rcases hrec : processChunks pat rep cs with _ | t <;>
          rw [hrw, hrec] at h <;> try cases h
      simp [joinChunks, ih t hrec, rewriteRegion_length hrw]

/-- The whole splice fails exactly when some region's replace-all outgrew
that region. -/
theorem processChunks_none_iff (pat rep : Bytes) :
    ∀ cs : List BinChunk, processChunks pat rep cs = none ↔
      ∃ r, BinChunk.region r ∈ cs ∧ r.length < (replaceAllLit pat rep r).length := by
  intro cs
  induction cs with
  | nil => simp [processChunks]
  | cons c cs ih =>
    match c with
    | BinChunk.raw b =>
      rw [processChunks]
      rcases hrec : processChunks pat rep cs with _ | t
      · rw [hrec] at ih
        simp only [Option.map]
        constructor
        · intro _
          obtain ⟨r, hr, hlen⟩ := ih.mp rfl
          exact ⟨r, List.mem_cons_of_mem _ hr, hlen⟩
        · intro _; trivial
      · rw [hrec] at ih
        simp only [Option.map]
        constructor
        · intro h; cases h
        · rintro ⟨r, hr, hlen⟩
          rcases List.mem_cons.mp hr with hr | hr
          · cases hr
          · exact absurd (ih.mpr ⟨r, hr, hlen⟩) (by simp)
    | BinChunk.region r =>
      rw [processChunks]
      rcases hrw : rewriteRegion pat rep r with _ | rr
      · constructor
        · intro _
          exact ⟨r, List.mem_cons_self _ _, rewriteRegion_none_iff.mp hrw⟩
        · intro _
          rcases hrec : processChunks pat rep cs with _ | t <;> rfl
      · rcases hrec : processChunks pat rep cs with _ | t
        · constructor
          · intro _
            obtain ⟨r', hr', hlen⟩ := ih.mp hrec
            exact ⟨r', List.mem_cons_of_mem _ hr', hlen⟩
          · intro _; rfl
        · constructor
          · intro h; cases h
          · rintro ⟨r', hr', hlen⟩
            rcases List.mem_cons.mp hr' with hr' | hr'
            · cases hr'
              exact absurd hrw (by
                rw [rewriteRegion_none_iff.symm] at hlen
                rw [hlen]
                simp)
            · exact absurd (ih.mpr ⟨r', hr', hlen⟩) (by rw [hrec]; simp)

/-- In a region, the only NUL byte is the terminating one. -/
theorem region_zero_index {pat mid : Bytes} (h0 : ¬ 0 ∈ pat) (hmid : ∀ b ∈ mid, b ≠ 0)
    {i : Nat} (h : (pat ++ mid ++ [0])[i]? = some 0) : i = pat.length + mid.length := by
  have hL : (pat ++ mid).length = pat.length + mid.length := by simp
  by_cases hi : i < (pat ++ mid).length
  · rw [List.getElem?_append_left hi] at h
    rcases List.mem_append.mp (List.getElem?_mem h) with hmem | hmem
    · exact absurd hmem h0
    · exact absurd rfl (hmid 0 hmem)
  · push_neg at hi
    rw [List.getElem?_append_right hi] at h
    have hzero : i - (pat ++ mid).length = 0 := by
      by_contra hne
      rw [List.getElem?_eq_none (by simp; omega)] at h
      cases h
    omega

/-- The rewritten chunk still carries a NUL at the region's last
position. -/
theorem chunk_last_zero {pat rep r rr : Bytes} (hp : pat ≠ []) (h0 : ¬ 0 ∈ pat)
    (hshape : ∃ mid, r = pat ++ mid ++ [0] ∧ ∀ b ∈ mid, b ≠ 0)
    (h : rewriteRegion pat rep r = some rr) : rr[r.length - 1]? = some 0 := by
  obtain ⟨mid, hr, _⟩ := hshape
  have hlen : rr.length = r.length := rewriteRegion_length h
  have hws : ∃ ws, rr = ws ++ [0] := by
    simp only [rewriteRegion] at h
    split_ifs at h with hlt
    cases h
    rcases Nat.eq_zero_or_pos (r.length - (replaceAllLit pat rep r).length) with hk | hk
    · rw [hk]
      simp only [List.replicate_zero, List.append_nil]
      refine replaceAllLit_trailing_zero pat rep hp h0 r ⟨pat ++ mid, by simp [hr]⟩
    · refine ⟨replaceAllLit pat rep r ++
        List.replicate (r.length - (replaceAllLit pat rep r).length - 1) 0, ?_⟩
      have h3 : List.replicate (r.length - (replaceAllLit pat rep r).length) (0 : Nat) =
          List.replicate (r.length - (replaceAllLit pat rep r).length - 1) 0 ++ [0] := by
        conv_lhs => rw [show r.length - (replaceAllLit pat rep r).length =
          (r.length - (replaceAllLit pat rep r).length - 1) + 1 by omega]
        rw [List.replicate_succ']
      rw [h3]
      simp [List.append_assoc]
  obtain ⟨ws, hwseq⟩ := hws
  have hwslen : ws.length = r.length - 1 := by
    have := congrArg List.length hwseq
    simp at this
    omega
  rw [hwseq, ← hwslen]
  rw [List.getElem?_append_right (Nat.le_refl _)]
  simp

/-- NUL positions of the input survive a successful splice. -/
theorem processChunks_nul (pat rep : Bytes) (hp : pat ≠ []) (h0 : ¬ 0 ∈ pat) :
    ∀ (cs : List BinChunk) (out : Bytes),
      (∀ r, BinChunk.region r ∈ cs → ∃ mid, r = pat ++ mid ++ [0] ∧ ∀ b ∈ mid, b ≠ 0) →
      processChunks pat rep cs = some out →
      ∀ i : Nat, (joinChunks cs)[i]? = some 0 → out[i]? = some 0 := by
  intro cs
  induction cs with
  | nil =>
    intro out _ h i hz
    cases h
    cases hz
  | cons c cs ih =>
    intro out hshape h i hz
    match c with
    | BinChunk.raw b =>
      rw [processChunks] at h
      rcases hrec : processChunks pat rep cs with _ | t <;> rw [hrec] at h
      · cases h
      · simp only [Option.map] at h
        cases h
        match i with
        | 0 =>
          simp only [joinChunks, List.getElem?_cons_zero] at hz ⊢
          exact hz
        | i + 1 =>
          simp only [joinChunks, List.getElem?_cons_succ] at hz ⊢
          exact ih t (fun r hr => hshape r (List.mem_cons_of_mem _ hr)) hrec i hz
    | BinChunk.region r =>
      rw [processChunks] at h
      rcases hrw : rewriteRegion pat rep r with _ | rr <;>
        rcases hrec : processChunks pat rep cs with _ | t <;>
          rw [hrw, hrec] at h <;> try cases h
      have hsh := hshape r (List.mem_cons_self _ _)
      have hrrlen : rr.length = r.length := rewriteRegion_length hrw
      simp only [joinChunks] at hz
      by_cases hi : i < r.length
      · rw [List.getElem?_append_left hi] at hz
        obtain ⟨mid, hreq, hmid⟩ := hsh
        have hidx : i = pat.length + mid.length := by
          rw [hreq] at hz
          exact region_zero_index h0 hmid hz
        have hL : r.length = pat.length + mid.length + 1 := by
          have := congrArg List.length hreq
          simpa using this
        rw [List.getElem?_append_left (by omega : i < rr.length)]
        have := chunk_last_zero hp h0 ⟨mid, hreq, hmid⟩ hrw
        rw [(by omega : i = r.length - 1)]
        exact this
      · push_neg at hi
        rw [List.getElem?_append_right hi] at hz
        rw [List.getElem?_append_right (by omega : rr.length ≤ i), hrrlen]
        exact ih t (fun r' hr' => hshape r' (List.mem_cons_of_mem _ hr')) hrec _ hz

theorem chunkMask_length : ∀ cs : List BinChunk, (chunkMask cs).length = (joinChunks cs).length := by
  intro cs
  induction cs with
  | nil => rfl
  | cons c cs ih =>
    match c with
    | BinChunk.raw b => simp [chunkMask, joinChunks, ih]
    | BinChunk.region r => simp [chunkMask, joinChunks, ih]

/-- Positions outside every matched region are passed through verbatim. -/
theorem processChunks_mask (pat rep : Bytes) :
    ∀ (cs : List BinChunk) (out : Bytes), processChunks pat rep cs = some out →
      ∀ i : Nat, (chunkMask cs)[i]? = some false → out[i]? = (joinChunks cs)[i]? := by
  intro cs
  induction cs with
  | nil =>
    intro out h i hm
    cases h
    cases hm
  | cons c cs ih =>
    intro out h i hm
    match c with
    | BinChunk.raw b =>
      rw [processChunks] at h
      rcases hrec : processChunks pat rep cs with _ | t <;> rw [hrec] at h
      · cases h
      · simp only [Option.map] at h
        cases h
        match i with
        | 0 => simp [joinChunks]
        | i + 1 =>
          simp only [chunkMask, List.getElem?_cons_succ] at hm
          simp only [joinChunks, List.getElem?_cons_succ]
          exact ih t hrec i hm
    | BinChunk.region r =>
      rw [processChunks] at h
      rcases hrw : rewriteRegion pat rep r with _ | rr <;>
        rcases hrec : processChunks pat rep cs with _ | t <;>
          rw [hrw, hrec] at h <;> try cases h
      have hrrlen : rr.length = r.length := rewriteRegion_length hrw
      simp only [chunkMask] at hm
      by_cases hi : i < r.length
      · rw [List.getElem?_append_left (by simpa using hi)] at hm
        rw [List.getElem?_replicate] at hm
        simp [hi] at hm
      · push_neg at hi
        rw [List.getElem?_append_right (by simpa using hi)] at hm
        simp only [List.length_replicate] at hm
        simp only [joinChunks]
        rw [List.getElem?_append_right hi,
          List.getElem?_append_right (by omega : rr.length ≤ i), hrrlen]
        exact ih t hrec _ hm

/-- A suffix of the input containing no NUL byte is passed through
verbatim. -/
theorem processChunks_suffix (pat rep : Bytes) :
    ∀ (cs : List BinChunk) (out : Bytes),
      (∀ r, BinChunk.region r ∈ cs → ∃ mid, r = pat ++ mid ++ [0] ∧ ∀ b ∈ mid, b ≠ 0) →
      processChunks pat rep cs = some out →
      ∀ i : Nat, (∀ b ∈ (joinChunks cs).drop i, b ≠ 0) →
        out.drop i = (joinChunks cs).drop i := by
  intro cs
  induction cs with
  | nil =>
    intro out _ h i _
    cases h
    rfl
  | cons c cs ih =>
    intro out hshape h i hnz
    match c with
    | BinChunk.raw b =>
      rw [processChunks] at h
      rcases hrec : processChunks pat rep cs with _ | t <;> rw [hrec] at h
      · cases h
      · simp only [Option.map] at h
        cases h
        match i with
        | 0 =>
          simp only [joinChunks, List.drop_zero] at hnz ⊢
          have ht : t = joinChunks cs := by
            have := ih t (fun r hr => hshape r (List.mem_cons_of_mem _ hr)) hrec 0
              (fun b hb => hnz b (List.mem_cons_of_mem _ (by simpa using hb)))
            simpa using this
          rw [ht]
        | i + 1 =>
          simp only [joinChunks, List.drop_succ_cons] at hnz ⊢
          exact ih t (fun r hr => hshape r (List.mem_cons_of_mem _ hr)) hrec i hnz
    | BinChunk.region r =>
      rw [processChunks] at h
      rcases hrw : rewriteRegion pat rep r with _ | rr <;>
        rcases hrec : processChunks pat rep cs with _ | t <;>
          rw [hrw, hrec] at h <;> try cases h
      have hrrlen : rr.length = r.length := rewriteRegion_length hrw
      obtain ⟨mid, hreq, hmid⟩ := hshape r (List.mem_cons_self _ _)
      by_cases hi : i < r.length
      · exfalso
        have h0mem : (0 : Nat) ∈ (joinChunks (BinChunk.region r :: cs)).drop i := by
          simp only [joinChunks]
          rw [List.drop_append_eq_append_drop]
          refine List.mem_append.mpr (Or.inl ?_)
          rw [hreq]
          rw [List.drop_append_eq_append_drop]
          refine List.mem_append.mpr (Or.inr ?_)
          have hlen2 : i - (pat ++ mid).length = 0 := by
            have := congrArg List.length hreq
            simp at this
            simp
            omega
          rw [hlen2]
          simp
        exact hnz 0 h0mem rfl
      · push_neg at hi
        simp only [joinChunks] at hnz ⊢
        rw [List.drop_append_eq_append_drop, List.drop_eq_nil_of_le (by omega : rr.length ≤ i),
          List.nil_append, hrrlen]
        rw [List.drop_append_eq_append_drop, List.drop_eq_nil_of_le hi, List.nil_append]
        rw [List.drop_append_eq_append_drop, List.drop_eq_nil_of_le hi, List.nil_append] at hnz
        exact ih t (fun r' hr' => hshape r' (List.mem_cons_of_mem _ hr')) hrec _ hnz

/-- Claim C4: on success, binary rewriting preserves length region-wise —
the output has the input's length, each matched region is rewritten to the
replace-all of its bytes (every placeholder occurrence, not only the
first) right-padded with NULs back to the region's length, and every NUL
position of the input is still NUL in the output. -/
theorem spec_c4 (pat rep data out : Bytes) (hp : pat ≠ []) (h0 : ¬ 0 ∈ pat)
    (hs : binary_replace pat rep data = some out) :
    out.length = data.length
    ∧ (∀ r, BinChunk.region r ∈ scanChunks pat data →
        ∃ rr, RepAll pat rep r rr ∧ rr.length ≤ r.length ∧
          rewriteRegion pat rep r = some (rr ++ List.replicate (r.length - rr.length) 0) ∧
          (rr ++ List.replicate (r.length - rr.length) 0).length = r.length)
    ∧ (∀ i : Nat, data[i]? = some 0 → out[i]? = some 0) := by
  rw [binary_replace] at hs
  have hjoin := joinChunks_scanChunks pat data
  refine ⟨?_, ?_, ?_⟩
  · have := processChunks_length pat rep (scanChunks pat data) out hs
    rwa [hjoin] at this
  · intro r hr
    refine ⟨replaceAllLit pat rep r, replaceAllLit_repAll pat rep hp r, ?_, ?_, ?_⟩
    · by_contra hlt
      push_neg at hlt
      have : processChunks pat rep (scanChunks pat data) = none :=
        (processChunks_none_iff pat rep _).mpr ⟨r, hr, hlt⟩
      rw [this] at hs
      cases hs
    · have hnlt : ¬ r.length < (replaceAllLit pat rep r).length := by
        intro hlt
        have : processChunks pat rep (scanChunks pat data) = none :=
          (processChunks_none_iff pat rep _).mpr ⟨r, hr, hlt⟩
        rw [this] at hs
        cases hs
      simp only [rewriteRegion]
      rw [if_neg hnlt]
    · have hnlt : ¬ r.length < (replaceAllLit pat rep r).length := by
        intro hlt
        have : processChunks pat rep (scanChunks pat data) = none :=
          (processChunks_none_iff pat rep _).mpr ⟨r, hr, hlt⟩
        rw [this] at hs
        cases hs
      simp only [List.length_append, List.length_replicate]
      omega
  · intro i hz
    have := processChunks_nul pat rep hp h0 (scanChunks pat data) out
      (fun r hr => scanChunks_region_shape pat data r hr) hs i (by rwa [hjoin])
    exact this

/-- Concrete instance of claim C4 (the layout of seeded scenario 4): both
placeholder occurrences inside the single region are replaced and the
length and NUL position are preserved. -/
theorem spec_c4_witness :
    ([2, 5, 2, 0, 9] : Bytes).length = ([1, 5, 1, 0, 9] : Bytes).length
    ∧ (∀ r, BinChunk.region r ∈ scanChunks [1] [1, 5, 1, 0, 9] →
        ∃ rr, RepAll [1] [2] r rr ∧ rr.length ≤ r.length ∧
          rewriteRegion [1] [2] r = some (rr ++ List.replicate (r.length - rr.length) 0) ∧
          (rr ++ List.replicate (r.length - rr.length) 0).length = r.length)
    ∧ (∀ i : Nat, ([1, 5, 1, 0, 9] : Bytes)[i]? = some 0 →
        ([2, 5, 2, 0, 9] : Bytes)[i]? = some 0) :=
  spec_c4 [1] [2] [1, 5, 1, 0, 9] [2, 5, 2, 0, 9] (by decide) (by decide)
    (by simp [binary_replace, scanChunks, processChunks, rewriteRegion, replaceAllLit])

/-- Claim C5: the rewrite fails — producing no output — exactly when some
matched region's replace-all (the replacement of every placeholder
occurrence by the target) holds more bytes than the region did. -/
theorem spec_c5 (pat rep data : Bytes) (hp : pat ≠ []) :
    binary_replace pat rep data = none ↔
      ∃ r rr, BinChunk.region r ∈ scanChunks pat data ∧ RepAll pat rep r rr ∧
        r.length < rr.length := by
  rw [binary_replace, processChunks_none_iff]
  constructor
  · rintro ⟨r, hr, hlt⟩
    exact ⟨r, replaceAllLit pat rep r, hr, replaceAllLit_repAll pat rep hp r, hlt⟩
  · rintro ⟨r, rr, hr, hrel, hlt⟩
    refine ⟨r, hr, ?_⟩
    have heq : rr = replaceAllLit pat rep r :=
      RepAll.unique hrel (replaceAllLit_repAll pat rep hp r)
    rw [← heq]
    exact hlt

/-- Concrete instance of claim C5: a target longer than the placeholder
makes the single region overflow, so no output is produced. -/
theorem spec_c5_witness : binary_replace [1] [2, 3] [1, 0] = none :=
  (spec_c5 [1] [2, 3] [1, 0] (by decide)).mpr
    ⟨[1, 0], [2, 3, 0], by simp [scanChunks],
      RepAll.occ [] [0] [0]
        (fun a' b' _ => Nat.zero_le _)
        (RepAll.noOcc [0] (by
          intro a b hab
          rcases a with _ | ⟨x, a⟩ <;> simp at hab)),
      by decide⟩

/-- Claim C10: a successful rewrite touches only matched regions — every
position the scan marks as outside all regions (the mask covers the whole
input) carries the input byte unchanged, and a placeholder occurrence with
no NUL anywhere after it is left completely unreplaced (the whole NUL-free
suffix is passed through verbatim). -/
theorem spec_c10 (pat rep data out : Bytes)
    (hs : binary_replace pat rep data = some out) :
    (chunkMask (scanChunks pat data)).length = data.length
    ∧ (∀ i : Nat, (chunkMask (scanChunks pat data))[i]? = some false →
        out[i]? = data[i]?)
    ∧ (∀ i : Nat, pat.isPrefixOf (data.drop i) = true →
        (∀ b ∈ data.drop i, b ≠ 0) → out.drop i = data.drop i) := by
  rw [binary_replace] at hs
  have hjoin := joinChunks_scanChunks pat data
  refine ⟨?_, ?_, ?_⟩
  · rw [chunkMask_length, hjoin]
  · intro i hm
    have := processChunks_mask pat rep (scanChunks pat data) out hs i hm
    rwa [hjoin] at this
  · intro i _ hnz
    have := processChunks_suffix pat rep (scanChunks pat data) out
      (fun r hr => scanChunks_region_shape pat data r hr) hs i (by rwa [hjoin])
    rwa [hjoin] at this

/-- Concrete instance of claim C10: a second placeholder occurrence with
no NUL after it stays untouched while the terminated region is rewritten. -/
theorem spec_c10_witness :
    (chunkMask (scanChunks [1] [1, 0, 7, 1, 2])).length = ([1, 0, 7, 1, 2] : Bytes).length
    ∧ (∀ i : Nat, (chunkMask (scanChunks [1] [1, 0, 7, 1, 2]))[i]? = some false →
        ([2, 0, 7, 1, 2] : Bytes)[i]? = ([1, 0, 7, 1, 2] : Bytes)[i]?)
    ∧ (∀ i : Nat, ([1] : Bytes).isPrefixOf (([1, 0, 7, 1, 2] : Bytes).drop i) = true →
        (∀ b ∈ ([1, 0, 7, 1, 2] : Bytes).drop i, b ≠ 0) →
        ([2, 0, 7, 1, 2] : Bytes).drop i = ([1, 0, 7, 1, 2] : Bytes).drop i) :=
  spec_c10 [1] [2] [1, 0, 7, 1, 2] [2, 0, 7, 1, 2]
    (by simp [binary_replace, scanChunks, processChunks, rewriteRegion, replaceAllLit])

/-! ## src/main.rs `uninstall_conda_pkg` (lines 498-533)

Paths are modelled as lists of (slash-free) components, and the
environment's file tree as an explicit state: the set of regular files,
the set of directories, and — for the JSON metadata files under
`conda-meta/` — the parsed record each one holds.  `getPrefixRecord`
stands for `conda_index.get_by_spec(spec)` followed by
`conda_cache.try_get_prefix_record(&pkg)` (`none` models the `unwrap`
panic or a cache error: the record comes from the INDEX AND CACHE, not
from the environment); `pipUninstall` stands for the external
`pip uninstall -y` subprocess used for noarch-python packages. -/

abbrev FPath := List Str

/-- The fields of the cache's `PrefixRecord` that the uninstaller reads:
the `noarch` marker and the recorded file list. -/
structure PrefixRecord where
  noarch : Option Str
  files : List FPath
deriving DecidableEq, Repr

/-- Environment file-tree state. -/
structure FS where
  files : List FPath
  dirs : List FPath
  records : List (FPath × PrefixRecord)
deriving DecidableEq, Repr

def fileExists (fs : FS) (p : FPath) : Bool := fs.files.contains p

/-- `std::fs::remove_file` (removing a JSON file also drops its parsed
record). -/
def removeFile (fs : FS) (p : FPath) : FS :=
  { fs with
    files := fs.files.filter (fun q => q ≠ p)
    records := fs.records.filter (fun e => e.1 ≠ p) }

/-- `std::fs::remove_dir`. -/
def removeDir (fs : FS) (p : FPath) : FS :=
  { fs with dirs := fs.dirs.filter (fun q => q ≠ p) }

/-- `parent.read_dir()?.next().is_none()`: the directory has no entries. -/
def dirEntriesEmpty (fs : FS) (p : FPath) : Bool :=
  fs.files.all (fun q => q.dropLast ≠ p) && fs.dirs.all (fun q => q.dropLast ≠ p)

/-- One iteration of the removal loop (src/main.rs lines 509-521): skip a
missing file; otherwise remove it and then its parent directory if that
became empty. -/
def uninstallFileStep (envRoot : FPath) (fs : FS) (file : FPath) : FS :=
  let toPath := envRoot ++ file
  if ¬ fileExists fs toPath then fs
  else
    let fs' := removeFile fs toPath
    let parent := toPath.dropLast
    if dirEntriesEmpty fs' parent then removeDir fs' parent else fs'

/-- `{env_root}/conda-meta/{name}-{version}-{build}.json`. -/
def condaMetaFile (envRoot : FPath) (spec : Spec) : FPath :=
  envRoot ++ ["conda-meta".data,
    spec.name ++ "-".data ++ spec.version ++ "-".data ++ spec.build ++ ".json".data]

/-- src/main.rs `uninstall_conda_pkg`. -/
def uninstall_conda_pkg (getPrefixRecord : Spec → Option PrefixRecord)
    (pipUninstall : FS → Spec → FS) (envRoot : FPath) (fs : FS) (spec : Spec) :
    Option FS :=
  match getPrefixRecord spec with
  | none => none
  | some record =>
    let fs1 :=
      if record.noarch = some "python".data then pipUninstall fs spec
      else record.files.foldl (uninstallFileStep envRoot) fs
    let metaFile := condaMetaFile envRoot spec
    some (if fileExists fs1 metaFile then removeFile fs1 metaFile else fs1)

theorem uninstallFileStep_files (envRoot : FPath) (fs : FS) (f : FPath) :
    (uninstallFileStep envRoot fs f).files = fs.files.filter (fun q => q ≠ envRoot ++ f) := by
  simp only [uninstallFileStep]
  by_cases h1 : fileExists fs (envRoot ++ f) = true
  · rw [if_neg (by simp [h1])]
    by_cases h2 : dirEntriesEmpty (removeFile fs (envRoot ++ f))
        ((envRoot ++ f).dropLast) = true
    · rw [if_pos h2]; simp [removeFile, removeDir]
    · rw [if_neg h2]; simp [removeFile]
  · rw [if_pos (by simp [h1])]
    have hnm : envRoot ++ f ∉ fs.files := by
      intro hmem
      exact h1 (by simpa [fileExists, List.elem_iff] using hmem)
    symm
    refine List.filter_eq_self.mpr ?_
    intro q hq
    simp only [ne_eq, decide_not, Bool.not_eq_true', decide_eq_false_iff_not]
    intro heq
    rw [heq] at hq
    exact hnm hq

theorem uninstallFileStep_dirs_sub (envRoot : FPath) (fs : FS) (f : FPath) :
    ∀ d ∈ (uninstallFileStep envRoot fs f).dirs, d ∈ fs.dirs := by
  intro d hd
  simp only [uninstallFileStep] at hd
  by_cases h1 : fileExists fs (envRoot ++ f) = true
  · rw [if_neg (by simp [h1])] at hd
    by_cases h2 : dirEntriesEmpty (removeFile fs (envRoot ++ f))
        ((envRoot ++ f).dropLast) = true
    · rw [if_pos h2] at hd
      simp only [removeDir, removeFile, List.mem_filter] at hd
      exact hd.1
    · rw [if_neg h2] at hd
      simpa [removeFile] using hd
  · rw [if_pos (by simp [h1])] at hd
    exact hd

theorem uninstallFileStep_dir_removed (envRoot : FPath) (fs : FS) (f : FPath) (d : FPath)
    (hmem : d ∈ fs.dirs) (hgone : d ∉ (uninstallFileStep envRoot fs f).dirs) :
    d = (envRoot ++ f).dropLast := by
  simp only [uninstallFileStep] at hgone
  by_cases h1 : fileExists fs (envRoot ++ f) = true
  · rw [if_neg (by simp [h1])] at hgone
    by_cases h2 : dirEntriesEmpty (removeFile fs (envRoot ++ f))
        ((envRoot ++ f).dropLast) = true
    · rw [if_pos h2] at hgone
      simp only [removeDir, removeFile, List.mem_filter] at hgone
      by_contra hne
      exact hgone ⟨hmem, by simpa using hne⟩
    · rw [if_neg h2] at hgone
      exact absurd (by simpa [removeFile] using hmem) hgone
  · rw [if_pos (by simp [h1])] at hgone
    exact absurd hmem hgone

theorem dirEntriesEmpty_mono {fs₁ fs₂ : FS}
    (hf : ∀ p ∈ fs₂.files, p ∈ fs₁.files) (hd : ∀ p ∈ fs₂.dirs, p ∈ fs₁.dirs)
    {d : FPath} (h : dirEntriesEmpty fs₁ d = true) : dirEntriesEmpty fs₂ d = true := by
  simp only [dirEntriesEmpty, Bool.and_eq_true, List.all_eq_true] at h ⊢
  refine ⟨fun q hq => h.1 q (hf q hq), fun q hq => h.2 q (hd q hq)⟩

theorem uninstallFileStep_dir_removed_empty (envRoot : FPath) (fs : FS) (f : FPath) (d : FPath)
    (hmem : d ∈ fs.dirs) (hgone : d ∉ (uninstallFileStep envRoot fs f).dirs) :
    dirEntriesEmpty (uninstallFileStep envRoot fs f) d = true := by
  have hd : d = (envRoot ++ f).dropLast :=
    uninstallFileStep_dir_removed envRoot fs f d hmem hgone
  simp only [uninstallFileStep] at hgone ⊢
  by_cases h1 : fileExists fs (envRoot ++ f) = true
  · rw [if_neg (by simp [h1])] at hgone ⊢
    by_cases h2 : dirEntriesEmpty (removeFile fs (envRoot ++ f))
        ((envRoot ++ f).dropLast) = true
    · rw [if_pos h2] at hgone ⊢
      refine dirEntriesEmpty_mono ?_ ?_ (hd ▸ h2)
      · intro p hp; exact hp
      · intro p hp
        simp only [removeDir, List.mem_filter] at hp
        exact hp.1
    · rw [if_neg h2] at hgone
      exact absurd (by simpa [removeFile] using hmem) hgone
  · rw [if_pos (by simp [h1])] at hgone
    exact absurd hmem hgone

theorem foldUninstall_files (envRoot : FPath) (files : List FPath) :
    ∀ (fs : FS) (p : FPath),
      p ∈ (files.foldl (uninstallFileStep envRoot) fs).files ↔
        p ∈ fs.files ∧ ∀ f ∈ files, p ≠ envRoot ++ f := by
  induction files with
  | nil => intro fs p; simp
  | cons f rest ih =>
    intro fs p
    rw [List.foldl_cons, ih]
    rw [uninstallFileStep_files]
    simp only [List.mem_filter, List.mem_cons, decide_not, ne_eq, Bool.not_eq_true',
      decide_eq_false_iff_not]
    constructor
    · rintro ⟨⟨hp, hf⟩, hrest⟩
      exact ⟨hp, by rintro g (rfl | hg); exact hf; exact hrest g hg⟩
    · rintro ⟨hp, hall⟩
      exact ⟨⟨hp, hall f (Or.inl rfl)⟩, fun g hg => hall g (Or.inr hg)⟩

theorem foldUninstall_dirs_sub (envRoot : FPath) (files : List FPath) :
    ∀ (fs : FS), ∀ d ∈ (files.foldl (uninstallFileStep envRoot) fs).dirs, d ∈ fs.dirs := by
  induction files with
  | nil => intro fs d hd; exact hd
  | cons f rest ih =>
    intro fs d hd
    rw [List.foldl_cons] at hd
    exact uninstallFileStep_dirs_sub envRoot fs f d (ih _ d hd)

theorem foldUninstall_files_sub (envRoot : FPath) (files : List FPath) :
    ∀ (fs : FS), ∀ p ∈ (files.foldl (uninstallFileStep envRoot) fs).files, p ∈ fs.files := by
  intro fs p hp
  exact ((foldUninstall_files envRoot files fs p).mp hp).1

theorem foldUninstall_dir_removed (envRoot : FPath) (files : List FPath) :
    ∀ (fs : FS) (d : FPath), d ∈ fs.dirs →
      d ∉ (files.foldl (uninstallFileStep envRoot) fs).dirs →
      (∃ f ∈ files, d = (envRoot ++ f).dropLast) ∧
        dirEntriesEmpty (files.foldl (uninstallFileStep envRoot) fs) d = true := by
  induction files with
  | nil => intro fs d hmem hgone; exact absurd hmem hgone
  | cons f rest ih =>
    intro fs d hmem hgone
    rw [List.foldl_cons] at hgone ⊢
    by_cases hd1 : d ∈ (uninstallFileStep envRoot fs f).dirs
    · obtain ⟨⟨g, hg, hgeq⟩, hempty⟩ := ih _ d hd1 hgone
      exact ⟨⟨g, List.mem_cons_of_mem _ hg, hgeq⟩, hempty⟩
    · refine ⟨⟨f, List.mem_cons_self _ _,
        uninstallFileStep_dir_removed envRoot fs f d hmem hd1⟩, ?_⟩
      have hstep := uninstallFileStep_dir_removed_empty envRoot fs f d hmem hd1
      exact dirEntriesEmpty_mono
        (foldUninstall_files_sub envRoot rest _)
        (foldUninstall_dirs_sub envRoot rest _) hstep

/-- Claim C2 (amended): for a non-noarch-python package,
`uninstall_conda_pkg` resolves the spec through the channel index and
derives the PrefixRecord from the package cache (it does NOT read the
`conda-meta` JSON); it then removes `{env_root}/{file}` for each file in
THAT record when present, removes a file's parent directory when it
became entryless, and finally removes the `conda-meta` metadata file. -/
theorem spec_c2_amended (getPrefixRecord : Spec → Option PrefixRecord)
    (pipUninstall : FS → Spec → FS) (envRoot : FPath) (fs : FS) (spec : Spec)
    (record : PrefixRecord)
    (hrec : getPrefixRecord spec = some record)
    (hnoarch : record.noarch ≠ some "python".data) :
    ∃ fs', uninstall_conda_pkg getPrefixRecord pipUninstall envRoot fs spec = some fs'
      ∧ (∀ p, p ∈ fs'.files ↔
          p ∈ fs.files ∧ (∀ f ∈ record.files, p ≠ envRoot ++ f) ∧
            p ≠ condaMetaFile envRoot spec)
      ∧ (∀ d ∈ fs'.dirs, d ∈ fs.dirs)
      ∧ (∀ d ∈ fs.dirs, d ∉ fs'.dirs →
          (∃ f ∈ record.files, d = (envRoot ++ f).dropLast) ∧
            dirEntriesEmpty fs' d = true) := by
  simp only [uninstall_conda_pkg, hrec, if_neg hnoarch]
  set fs1 := record.files.foldl (uninstallFileStep envRoot) fs with hfs1
  set metaFile := condaMetaFile envRoot spec with hmf
  refine ⟨_, rfl, ?_, ?_, ?_⟩
  · intro p
    by_cases hex : fileExists fs1 metaFile = true
    · rw [if_pos hex]
      simp only [removeFile, List.mem_filter, decide_not, ne_eq, Bool.not_eq_true',
        decide_eq_false_iff_not]
      rw [hfs1, foldUninstall_files]
      tauto
    · rw [if_neg hex]
      rw [hfs1, foldUninstall_files]
      constructor
      · rintro ⟨hp, hall⟩
        refine ⟨hp, hall, ?_⟩
        intro heq
        apply hex
        rw [← heq]
        simp only [fileExists, List.elem_iff]
        rw [hfs1, foldUninstall_files]
        exact ⟨hp, hall⟩
      · rintro ⟨hp, hall, _⟩
        exact ⟨hp, hall⟩
  · intro d hd
    have hd1 : d ∈ fs1.dirs := by
      by_cases hex : fileExists fs1 metaFile = true
      · rw [if_pos hex] at hd; exact hd
      · rw [if_neg hex] at hd; exact hd
    exact foldUninstall_dirs_sub envRoot record.files fs d hd1
  · intro d hmem hgone
    have hgone1 : d ∉ fs1.dirs := by
      intro hd1
      apply hgone
      by_cases hex : fileExists fs1 metaFile = true
      · rw [if_pos hex]; exact hd1
      · rw [if_neg hex]; exact hd1
    obtain ⟨hf, hempty⟩ := foldUninstall_dir_removed envRoot record.files fs d hmem hgone1
    refine ⟨hf, ?_⟩
    by_cases hex : fileExists fs1 metaFile = true
    · rw [if_pos hex]
      refine dirEntriesEmpty_mono ?_ ?_ hempty
      · intro p hp
        simp only [removeFile, List.mem_filter] at hp
        exact hp.1
      · intro p hp; exact hp
    · rw [if_neg hex]
      exact hempty

/-- Concrete environment for the claim C2 counterexample: the conda-meta
JSON of package n records the file `a`, while the index-and-cache-derived
record lists the file `b`; both files exist under the environment root. -/
def c2Env : FPath := ["env".data]

def c2Spec : Spec := ⟨"n".data, "1".data, "b".data, none⟩

def c2MetaRecord : PrefixRecord := ⟨none, [["a".data]]⟩

def c2CacheRecord : PrefixRecord := ⟨none, [["b".data]]⟩

def c2FS : FS :=
  { files := [c2Env ++ ["a".data], c2Env ++ ["b".data], condaMetaFile c2Env c2Spec]
    dirs := []
    records := [(condaMetaFile c2Env c2Spec, c2MetaRecord)] }

/-- Claim C2 is false as stated: the uninstaller does not load the
PrefixRecord from `{env_root}/conda-meta/{name}-{version}-{build}.json` —
it resolves the spec in the index and derives the record from the package
cache.  Here the environment's conda-meta JSON records exactly the file
`a`, yet `a` survives the uninstall while `b`, the file listed by the
cache-derived record, is removed. -/
theorem spec_c2_cex :
    uninstall_conda_pkg (fun _ => some c2CacheRecord) (fun fs _ => fs) c2Env c2FS c2Spec =
      some { files := [c2Env ++ ["a".data]], dirs := [], records := [] }
    ∧ ((c2FS.records.find? (fun e => e.1 = condaMetaFile c2Env c2Spec)).map
        (fun e => e.2)) = some c2MetaRecord
    ∧ c2MetaRecord.files = [["a".data]]
    ∧ c2CacheRecord.files = [["b".data]] := by
  decide

/-- Concrete instance of the amended claim C2 on the same environment. -/
theorem spec_c2_witness :
    ∃ fs', uninstall_conda_pkg (fun _ => some c2CacheRecord) (fun fs _ => fs)
        c2Env c2FS c2Spec = some fs'
      ∧ (∀ p, p ∈ fs'.files ↔
          p ∈ c2FS.files ∧ (∀ f ∈ c2CacheRecord.files, p ≠ c2Env ++ f) ∧
            p ≠ condaMetaFile c2Env c2Spec)
      ∧ (∀ d ∈ fs'.dirs, d ∈ c2FS.dirs)
      ∧ (∀ d ∈ c2FS.dirs, d ∉ fs'.dirs →
          (∃ f ∈ c2CacheRecord.files, d = (c2Env ++ f).dropLast) ∧
            dirEntriesEmpty fs' d = true) :=
  spec_c2_amended (fun _ => some c2CacheRecord) (fun fs _ => fs) c2Env c2FS c2Spec
    c2CacheRecord rfl (by decide)

/-! ## src/main.rs `install_conda_pkg` (lines 365-496)

The claim about this function concerns the process working directory, so
the state carries the cwd explicitly next to a file tree with contents
(`files`), directories (`dirs`) and symlinks (`links`).  Hardlinks are
modelled as content copies, permission bits are not modelled, and
`create_dir_all` adds the one requested directory.  The parts of the
function that precede `std::env::current_dir()` (index resolution and the
tarball download) perform no cwd changes and are supplied as inputs:
`extractedDir` and `record` are what `try_get_prefix_record` returned,
`entryPoints` what `get_entry_points` returned.  `scriptBytes` stands for
the generated entry-point script text and `serializeRecord` for the JSON
serialization of the prefix record — their byte content is irrelevant to
every claim and is not modelled.  Every `?`/panic exit of the source is an
`Except.error`. -/

/-- File tree with contents. -/
structure IFS where
  files : List (FPath × Bytes)
  dirs : List FPath
  links : List (FPath × FPath)
deriving DecidableEq, Repr

def IFS.fileAt (fs : IFS) (p : FPath) : Option Bytes :=
  (fs.files.find? (fun e => e.1 = p)).map (fun e => e.2)

def IFS.linkAt (fs : IFS) (p : FPath) : Option FPath :=
  (fs.links.find? (fun e => e.1 = p)).map (fun e => e.2)

def IFS.pathExists (fs : IFS) (p : FPath) : Bool :=
  fs.files.any (fun e => e.1 = p) || fs.dirs.contains p || fs.links.any (fun e => e.1 = p)

def IFS.removeFileOrLink (fs : IFS) (p : FPath) : IFS :=
  { fs with
    files := fs.files.filter (fun e => e.1 ≠ p)
    links := fs.links.filter (fun e => e.1 ≠ p) }

def IFS.writeFile (fs : IFS) (p : FPath) (data : Bytes) : IFS :=
  { fs with files := (p, data) :: fs.files.filter (fun e => e.1 ≠ p) }

def IFS.createDirAll (fs : IFS) (p : FPath) : IFS :=
  if fs.dirs.contains p then fs else { fs with dirs := p :: fs.dirs }

/-- Process state: working directory plus file tree. -/
structure SysState where
  cwd : FPath
  fs : IFS
deriving DecidableEq, Repr

/-- src/conda/cache.rs `PathType`. -/
inductive InstPathType
  | hardlink
  | softlink
  | directory
deriving DecidableEq, Repr

/-- src/conda/cache.rs `FileMode`. -/
inductive InstFileMode
  | text
  | binary
deriving DecidableEq, Repr

/-- The fields of a `PathData` entry the installer reads; the
`prefix_placeholder` byte literal is named `placeholder`. -/
structure InstPathData where
  path : FPath
  placeholder : Option Bytes
  file_mode : Option InstFileMode
  path_type : InstPathType
deriving DecidableEq, Repr

/-- The fields of the cache's prefix record the installer reads. -/
structure InstallRecord where
  paths : List InstPathData
  noarch : Option Str
deriving DecidableEq, Repr

/-- src/conda/cache.rs entry point (`cli`, `module`, `func`). -/
structure EntryPoint where
  cli : Str
  module : Str
  func : Str
deriving DecidableEq, Repr

/-- Bytes of a string (for the prefix-rewrite target). -/
def strBytes (s : Str) : Bytes := s.map Char.toNat

/-- Bytes of a path: components joined by the slash byte 47
(`env_root_dir.display().to_string().as_bytes()`). -/
def pathBytes : FPath → Bytes
  | [] => []
  | [c] => strBytes c
  | c :: rest => strBytes c ++ [47] ++ pathBytes rest

/-- Target-path policy (src/main.rs lines 399-405): an entry of a
noarch-python package whose path begins with `site-packages/` is rewritten
under `lib/python{X.Y}/`; `python_version.unwrap()` panics when the
version is absent. -/
def targetPathOf (noarch : Option Str) (pythonVersion : Option Str) (p : FPath) :
    Except Unit FPath :=
  if p.head? = some "site-packages".data ∧ 2 ≤ p.length ∧ noarch = some "python".data then
    match pythonVersion with
    | none => Except.error ()
    | some v => Except.ok (["lib".data, "python".data ++ v] ++ p)
  else Except.ok p

/-- The `match file.path_type` block (src/main.rs lines 415-452).  All its
effects are file-tree effects; the process cwd — set to the target's
parent just before — is read by the softlink arm, which creates the link
at the RELATIVE path `from.file_name()`, i.e. at `{cwd}/{file name}`. -/
def materializeEntry (cwd : FPath) (fs : IFS) (file : InstPathData)
    (fromPath toPath : FPath) (envBytes : Bytes) : Except Unit IFS :=
  match file.path_type with
  | InstPathType.hardlink =>
    let fs1 := if fs.pathExists toPath then fs.removeFileOrLink toPath else fs
    match file.placeholder with
    | some pref =>
      match fs1.fileAt fromPath with
      | none => Except.error ()
      | some contents =>
        match file.file_mode with
        | some InstFileMode.text | none =>
          Except.ok (fs1.writeFile toPath (replaceAllLit pref envBytes contents))
        | some InstFileMode.binary =>
          match binary_replace pref envBytes contents with
          | none => Except.error ()
          | some data => Except.ok (fs1.writeFile toPath data)
    | none =>
      match fs1.fileAt fromPath with
      | none => Except.error ()
      | some contents => Except.ok (fs1.writeFile toPath contents)
  | InstPathType.softlink =>
    match fs.linkAt fromPath with
    | none => Except.error ()
    | some original =>
      match fromPath.getLast? with
      | none => Except.error ()
      | some name =>
        let linkAbs := cwd ++ [name]
        let fs1 := if fs.pathExists linkAbs then fs.removeFileOrLink linkAbs else fs
        Except.ok { fs1 with links := (linkAbs, original) :: fs1.links }
  | InstPathType.directory =>
    Except.ok (fs.createDirAll toPath)

/-- A Rust `for` loop whose body exits early with `?`: a fold in the
`Except` monad, written as a structural match. -/
def foldE (f : σ → α → Except Unit σ) : σ → List α → Except Unit σ
  | s, [] => Except.ok s
  | s, a :: l =>
    match f s a with
    | Except.error e => Except.error e
    | Except.ok s1 => foldE f s1 l

/-- One iteration of the materialization loop (src/main.rs lines
398-453): compute the target path, record it in the `files` list, ensure
the target's parent exists, change the working directory to it, then
materialize the entry. -/
def installFileStep (extractedDir envRoot : FPath) (envBytes : Bytes) (noarch : Option Str)
    (pythonVersion : Option Str) (acc : SysState × List FPath) (file : InstPathData) :
    Except Unit (SysState × List FPath) :=
  match targetPathOf noarch pythonVersion file.path with
  | Except.error e => Except.error e
  | Except.ok targetPath =>
    let fromPath := extractedDir ++ file.path
    let toPath := envRoot ++ targetPath
    let parent := toPath.dropLast
    let fs0 := if acc.1.fs.pathExists parent then acc.1.fs else acc.1.fs.createDirAll parent
    match materializeEntry parent fs0 file fromPath toPath envBytes with
    | Except.error e => Except.error e
    | Except.ok fs1 => Except.ok (⟨parent, fs1⟩, acc.2 ++ [targetPath])

/-- One iteration of the entry-point loop (src/main.rs lines 455-478):
write the launcher script into `{env_root}/bin/{cli}` and record it. -/
def entryPointStep (envRoot : FPath) (pythonVersion : Option Str)
    (scriptBytes : EntryPoint → FPath → Bytes) (acc : SysState × List FPath)
    (ep : EntryPoint) : Except Unit (SysState × List FPath) :=
  match pythonVersion with
  | none => Except.error ()
  | some v =>
    let pythonBin := envRoot ++ ["bin".data, "python".data ++ v]
    let scriptPath := envRoot ++ ["bin".data, ep.cli]
    Except.ok ({ acc.1 with fs := acc.1.fs.writeFile scriptPath (scriptBytes ep pythonBin) },
      acc.2 ++ [scriptPath])

/-- src/main.rs `install_conda_pkg`, from `std::env::current_dir()` (line
394) to the prefix-record dump (line 493): save the cwd, materialize every
entry (each iteration moves the cwd to the target's parent), generate the
entry-point scripts, restore the saved cwd, then write the record — with
its `files` set to the collected target paths — into
`conda-meta/{name}-{version}-{build}.json`. -/
def install_conda_pkg (extractedDir : FPath) (record : InstallRecord)
    (entryPoints : List EntryPoint) (scriptBytes : EntryPoint → FPath → Bytes)
    (serializeRecord : List FPath → Bytes) (envRoot : FPath)
    (pythonVersion : Option Str) (spec : Spec) (st : SysState) :
    Except Unit SysState :=
  let cwd0 := st.cwd
  let envBytes := pathBytes envRoot
  match foldE (installFileStep extractedDir envRoot envBytes record.noarch pythonVersion)
      (st, []) record.paths with
  | Except.error e => Except.error e
  | Except.ok acc =>
    match foldE (entryPointStep envRoot pythonVersion scriptBytes) acc entryPoints with
    | Except.error e => Except.error e
    | Except.ok acc =>
      let st1 : SysState := { acc.1 with cwd := cwd0 }
      let condaMetaDir := envRoot ++ ["conda-meta".data]
      let fs1 := if st1.fs.pathExists condaMetaDir then st1.fs
        else st1.fs.createDirAll condaMetaDir
      Except.ok
        { st1 with fs := fs1.writeFile (condaMetaFile envRoot spec) (serializeRecord acc.2) }

/-- C9: installing a single package restores the process working
directory.  On the success path, the state returned by
`install_conda_pkg` has the same `cwd` as the input state, even though
each successful materialization step moves the working directory to the
installed file's parent `(env_root ++ target_path).dropLast` (second
conjunct). -/
theorem spec_c9 (extractedDir : FPath) (record : InstallRecord)
    (entryPoints : List EntryPoint) (scriptBytes : EntryPoint → FPath → Bytes)
    (serializeRecord : List FPath → Bytes) (envRoot : FPath)
    (pythonVersion : Option Str) (spec : Spec) (st st' : SysState)
    (h : install_conda_pkg extractedDir record entryPoints scriptBytes serializeRecord
        envRoot pythonVersion spec st = Except.ok st') :
    st'.cwd = st.cwd ∧
    ∀ acc file acc',
      installFileStep extractedDir envRoot (pathBytes envRoot) record.noarch pythonVersion
        acc file = Except.ok acc' →
      ∃ tp, targetPathOf record.noarch pythonVersion file.path = Except.ok tp ∧
        acc'.1.cwd = (envRoot ++ tp).dropLast ∧ acc'.2 = acc.2 ++ [tp] := by
  constructor
  · simp only [install_conda_pkg] at h
    split at h
    · cases h
    · split at h
      · cases h
      · injection h with h
        rw [← h]
  · intro acc file acc' hstep
    simp only [installFileStep] at hstep
    split at hstep
    · cases hstep
    · rename_i tp htp
      split at hstep
      · cases hstep
      · rename_i fs1 hm
        injection hstep with hstep
        exact ⟨tp, htp, by rw [← hstep], by rw [← hstep]⟩

def c9Ed : FPath := ["p".data]

def c9Root : FPath := ["env".data]

def c9Rec : InstallRecord :=
  ⟨[⟨["x".data], none, none, InstPathType.hardlink⟩], none⟩

def c9Spec : Spec := ⟨"a".data, "1".data, "b".data, none⟩

def c9St : SysState := ⟨["home".data], ⟨[(["p".data, "x".data], [5])], [], []⟩⟩

def c9Out : SysState :=
  ⟨["home".data],
   ⟨[(["env".data, "conda-meta".data, "a-1-b.json".data], []),
     (["env".data, "x".data], [5]),
     (["p".data, "x".data], [5])],
    [["env".data, "conda-meta".data], ["env".data]],
    []⟩⟩

/-- Witness for C9 on a concrete one-file package: the installation
succeeds, the returned cwd equals the starting cwd, and the per-entry
characterization holds. -/
theorem spec_c9_witness :
    c9Out.cwd = c9St.cwd ∧
    ∀ acc file acc',
      installFileStep c9Ed c9Root (pathBytes c9Root) c9Rec.noarch none acc file =
        Except.ok acc' →
      ∃ tp, targetPathOf c9Rec.noarch none file.path = Except.ok tp ∧
        acc'.1.cwd = (c9Root ++ tp).dropLast ∧ acc'.2 = acc.2 ++ [tp] :=
  spec_c9 c9Ed c9Rec [] (fun _ _ => []) (fun _ => []) c9Root none c9Spec c9St c9Out
    (by rfl)
